import Mathlib

/-!
# A* route planner (`src/route_planner.cpp`)

A shallow embedding of `RoutePlanner` and of the part of `RouteModel` it uses.

* Nodes are indices into the model's node table (`RouteModel::Node *` becomes `Nat`,
  `nullptr` becomes `none`).
* `float` is replaced by an arbitrary linearly ordered commutative ring `α`
  (exact arithmetic: `ℤ`, `ℚ`, `ℝ`).
* The members of the model that `route_planner.cpp` only reads (`x`, `y`, `distance`,
  `MetricScale`, the adjacency behind `FindNeighbors`) are fields of `RouteModel`.
* The mutable members (the per-node search fields, `open_list`, `distance`,
  `m_Model.path`) are the fields of `State`, threaded explicitly.
* `std::sort` is a parameter `sort`, constrained by `IsStdSort`, so that no result
  depends on how the library orders equal keys.
* Loops that C++ does not bound take a fuel argument; `none` stands for
  "no result" (out of fuel, or undefined behaviour such as `back()` on an empty
  vector or following a null `parent`).
* Two functions of `RouteModel` that `route_planner.cpp` calls are not in `src/`:
  `FindNeighbors` and `FindClosestNode`. Each is modelled from the spec, under a comment
  that says so.
* `LoopState` gives the states at the tests of the `while` loop of `AStarSearch`, and
  `NextNodeCalls` the arguments of its calls of `NextNode`.
-/

set_option linter.unusedSectionVars false
set_option linter.dupNamespace false

namespace RoutePlanning

/-- The read-only part of `RouteModel` used by the planner. -/
structure RouteModel (α : Type) where
  /-- Number of nodes of the model (`SNodes().size()`); nodes are `0 .. size - 1`. -/
  size : Nat
  /-- Field `x` of a node. -/
  x : Nat → α
  /-- Field `y` of a node. -/
  y : Nat → α
  /-- Adjacency of a node, the input of neighbour discovery. -/
  adj : Nat → List Nat
  /-- Method `a -> distance(b)` of a node, written `distance a b`. -/
  distance : Nat → Nat → α
  /-- Method `MetricScale()`. -/
  MetricScale : α

/-- The members of `RoutePlanner` fixed by its constructor. -/
structure RoutePlanner (α : Type) where
  m_Model : RouteModel α
  start_node : Nat
  end_node : Nat

/-- The mutable state: the search fields of every node, the planner's `open_list` and
`distance`, and the model's `path` (node snapshots, identified by their index). -/
structure State (α : Type) where
  parent : Nat → Option Nat
  g_value : Nat → α
  h_value : Nat → α
  visited : Nat → Bool
  open_list : List Nat
  distance : α
  path : List Nat

/-- How the `while` loop of `AStarSearch` was left: through the `break` of the goal
branch, or because `open_list.size() > 0` failed. -/
inductive Exit where
  | found
  | exhausted
  deriving DecidableEq

section Defs

variable {α : Type} [LinearOrderedCommRing α]

/-- Method `RoutePlanner::CalculateHValue`: `end_node -> distance(*node)`. -/
def CalculateHValue (P : RoutePlanner α) (node : Nat) : α :=
  P.m_Model.distance P.end_node node

/-- Modelled from the spec: `RouteModel::Node::FindNeighbors` is not in `src/`. The
spec has the expansion request "the current node's adjacency set" and act on "each
neighbor not yet visited in this search". The loop of `AddNeighbors` has no test of
`visited`, and `route_planner.cpp` writes `visited` but never reads it, so the test is
placed here: the `neighbors` vector is the adjacency of the node restricted to the
nodes not yet visited. -/
def FindNeighbors (M : RouteModel α) (s : State α) (node : Nat) : List Nat :=
  (M.adj node).filter (fun m => !s.visited m)

/-- One iteration of the `for` loop of `AddNeighbors`, lines 30-37. -/
def AddNeighbor (P : RoutePlanner α) (current_node : Nat) (s : State α) (neighbor : Nat) :
    State α :=
  let s1 := { s with parent := Function.update s.parent neighbor (some current_node) }
  let s2 := { s1 with h_value := Function.update s1.h_value neighbor (CalculateHValue P neighbor) }
  let g := s2.g_value current_node + P.m_Model.distance neighbor current_node
  let s3 := { s2 with g_value := Function.update s2.g_value neighbor g }
  let s4 := { s3 with visited := Function.update s3.visited neighbor true }
  { s4 with open_list := s4.open_list ++ [neighbor] }

/-- Method `RoutePlanner::AddNeighbors`, lines 25-39. -/
def AddNeighbors (P : RoutePlanner α) (s : State α) (current_node : Nat) : State α :=
  (FindNeighbors P.m_Model s current_node).foldl (AddNeighbor P current_node) s

/-- The comparator given to `std::sort` in `NextNode`, line 51. -/
def scoreGreater (s : State α) (A B : Nat) : Bool :=
  decide (s.h_value A + s.g_value A > s.h_value B + s.g_value B)

/-- Method `RoutePlanner::NextNode`: sort, then take and remove the last element. `back()` on
an empty vector is undefined: `none`. -/
def NextNode (sort : (Nat → Nat → Bool) → List Nat → List Nat) (s : State α) :
    Option (Nat × State α) :=
  let sorted := sort (scoreGreater s) s.open_list
  match sorted.getLast? with
  | none => none
  | some lowest => some (lowest, { s with open_list := sorted.dropLast })

/-- The `while` loop of `ConstructFinalPath`, lines 69-75, on the local variables
`current_node`, `distance` and `path_found`. -/
def ConstructFinalPathLoop (P : RoutePlanner α) (parent : Nat → Option Nat) :
    Nat → Nat → α → List Nat → Option (α × List Nat)
  | fuel, current_node, distance, path_found =>
    if current_node = P.start_node then some (distance, path_found)
    else
      match fuel with
      | 0 => none
      | fuel + 1 =>
        match parent current_node with
        | none => none
        | some p =>
          ConstructFinalPathLoop P parent fuel p
            (distance + P.m_Model.distance current_node p) (path_found ++ [p])

/-- Method `RoutePlanner::ConstructFinalPath`: the returned vector and the state in which
`distance` has been set. -/
def ConstructFinalPath (P : RoutePlanner α) (fuel : Nat) (s : State α) (current_node : Nat) :
    Option (List Nat × State α) :=
  match ConstructFinalPathLoop P s.parent fuel current_node 0 [current_node] with
  | none => none
  | some (d, path_found) =>
    some (path_found.reverse, { s with distance := d * P.m_Model.MetricScale })

/-- The test of line 103: the coordinates of `current_node` are those of `end_node`. -/
def atGoal (P : RoutePlanner α) (current_node : Nat) : Bool :=
  decide (P.m_Model.x current_node = P.m_Model.x P.end_node) &&
    decide (P.m_Model.y current_node = P.m_Model.y P.end_node)

/-- The `while` loop of `AStarSearch`, lines 94-107. -/
def AStarSearchLoop (sort : (Nat → Nat → Bool) → List Nat → List Nat) (P : RoutePlanner α) :
    Nat → State α → Option (Exit × State α)
  | 0, _ => none
  | fuel + 1, s =>
    if s.open_list.length > 0 then
      match NextNode sort s with
      | none => none
      | some (current_node, s1) =>
        let s2 := AddNeighbors P s1 current_node
        if atGoal P current_node then
          match ConstructFinalPath P fuel s2 current_node with
          | none => none
          | some (path, s3) => some (Exit.found, { s3 with path := path })
        else AStarSearchLoop sort P fuel s2
    else some (Exit.exhausted, s)

/-- Method `RoutePlanner::AStarSearch`, lines 85-108. -/
def AStarSearch (sort : (Nat → Nat → Bool) → List Nat → List Nat) (P : RoutePlanner α)
    (fuel : Nat) (s : State α) : Option (Exit × State α) :=
  let s1 := { s with visited := Function.update s.visited P.start_node true }
  let s2 := { s1 with open_list := s1.open_list ++ [P.start_node] }
  AStarSearchLoop sort P fuel s2

/-- A comparator is a strict weak ordering, the requirement of `std::sort`. -/
def StrictWeak (cmp : Nat → Nat → Bool) : Prop :=
  (∀ a, cmp a a = false) ∧
  (∀ a b c, cmp a b = true → cmp b c = true → cmp a c = true) ∧
  (∀ a b c, cmp a b = false → cmp b c = false → cmp a c = false)

/-- What `std::sort` guarantees when its comparator is a strict weak ordering: the
result is a rearrangement of the input in which no element is ordered before an
earlier one, and it depends on the comparator only through the comparisons of
elements of the input. Which of several equal elements comes first is left open. -/
def IsStdSort (sort : (Nat → Nat → Bool) → List Nat → List Nat) : Prop :=
  (∀ cmp l, StrictWeak cmp → (sort cmp l).Perm l) ∧
  (∀ cmp l, StrictWeak cmp → (sort cmp l).Pairwise (fun a b => cmp b a = false)) ∧
  (∀ cmp cmp2 l, (∀ a ∈ l, ∀ b ∈ l, cmp a b = cmp2 a b) → sort cmp l = sort cmp2 l)

/-- Insertion of one element into a list ordered by `cmp`. -/
def orderedInsert (cmp : Nat → Nat → Bool) (a : Nat) : List Nat → List Nat
  | [] => [a]
  | b :: l => if cmp a b then a :: b :: l else b :: orderedInsert cmp a l

/-- A concrete sort (insertion sort) with which the planner can be run. -/
def insertionSort (cmp : Nat → Nat → Bool) : List Nat → List Nat
  | [] => []
  | a :: l => orderedInsert cmp a (insertionSort cmp l)

end Defs

section ChainDefs

variable {α : Type} [LinearOrderedCommRing α]

/-- The nodes met when following `parent` at most `k` times from `v`, `v` first. -/
def chainNodes (parent : Nat → Option Nat) : Nat → Nat → List Nat
  | 0, v => [v]
  | k + 1, v =>
    match parent v with
    | none => [v]
    | some p => v :: chainNodes parent k p

/-- The sum of the node-to-parent distances over the first `k` steps of the parent
chain of `v`. -/
def chainDistance (M : RouteModel α) (parent : Nat → Option Nat) : Nat → Nat → α
  | 0, _ => 0
  | k + 1, v =>
    match parent v with
    | none => 0
    | some p => M.distance v p + chainDistance M parent k p

/-- The sum of `distance a b` over the consecutive pairs `a, b` of a list of nodes. -/
def pathLength (M : RouteModel α) : List Nat → α
  | [] => 0
  | [_] => 0
  | a :: b :: l => M.distance a b + pathLength M (b :: l)

/-- The parent chain of `v` reaches `start_node` in exactly `k` steps, `start_node` not
being met before. -/
inductive ChainTo (start_node : Nat) (parent : Nat → Option Nat) : Nat → Nat → Prop
  | root : ChainTo start_node parent start_node 0
  | step {v p k : Nat} : v ≠ start_node → parent v = some p →
      ChainTo start_node parent p k → ChainTo start_node parent v (k + 1)

/-- Node `b` can be reached from node `a` along edges of the model. -/
def Reach (M : RouteModel α) (a b : Nat) : Prop :=
  Relation.ReflTransGen (fun u v => v ∈ M.adj u) a b

/-- The model is a finite graph: the edges of its nodes lead to its nodes, and the
planner's start node is one of them. -/
def WellFormed (P : RoutePlanner α) : Prop :=
  P.start_node < P.m_Model.size ∧
    ∀ v, v < P.m_Model.size → ∀ m ∈ P.m_Model.adj v, m < P.m_Model.size

/-- A fresh search state: no node is marked visited and `open_list` is empty. -/
def Fresh (s : State α) : Prop :=
  (∀ v, s.visited v = false) ∧ s.open_list = []

/-- The number of nodes of the model not yet marked visited. -/
def unvisitedCount (M : RouteModel α) (s : State α) : Nat :=
  ((List.range M.size).filter (fun v => !s.visited v)).length

/-- The invariant of the `while` loop of `AStarSearch`: nodes of `open_list` are
visited, visited nodes are nodes of the model, `start_node` is visited, the parent of
a visited node other than `start_node` is a visited node, and every visited node has
a parent chain to `start_node`. -/
structure Inv (P : RoutePlanner α) (s : State α) : Prop where
  open_visited : ∀ v ∈ s.open_list, s.visited v = true
  visited_lt : ∀ v, s.visited v = true → v < P.m_Model.size
  start_visited : s.visited P.start_node = true
  parent_visited : ∀ v, s.visited v = true → v ≠ P.start_node →
    ∃ p, s.parent v = some p ∧ s.visited p = true
  chain : ∀ v, s.visited v = true → ∃ k, ChainTo P.start_node s.parent v k

/-- The state in which the `while` loop of `AStarSearch` is entered. -/
def initState (P : RoutePlanner α) (s : State α) : State α :=
  { s with visited := Function.update s.visited P.start_node true,
           open_list := s.open_list ++ [P.start_node] }

/-- The state in which the goal branch leaves the loop: `u` is the state after the last
`AddNeighbors`, `c` the node popped last and `k` the length of its parent chain. -/
def foundState (P : RoutePlanner α) (u : State α) (c k : Nat) : State α :=
  { { u with distance := chainDistance P.m_Model u.parent k c * P.m_Model.MetricScale } with
    path := (chainNodes u.parent k c).reverse }

/-- What holds when the loop is left, for a property `I` kept by every iteration:
either `open_list` is empty and `I` holds, or the last popped node `c` is at the goal
and the final state is `foundState`. -/
def LoopPost (P : RoutePlanner α) (I : State α → Prop) (e : Exit) (r : State α) : Prop :=
  (e = Exit.exhausted ∧ I r ∧ r.open_list = []) ∨
  (e = Exit.found ∧ ∃ (t : State α) (c : Nat) (rest : List Nat) (k : Nat),
    I t ∧ (rest ++ [c]).Perm t.open_list ∧ atGoal P c = true ∧
    ChainTo P.start_node (AddNeighbors P { t with open_list := rest } c).parent c k ∧
    r = foundState P (AddNeighbors P { t with open_list := rest } c) c k)

/-- The invariant of the loop of `AStarSearch` in a search started from a fresh state:
`Inv`, and every visited node that is no longer in `open_list` has all its neighbours
visited and is not at the goal. -/
def SearchInv (P : RoutePlanner α) (s : State α) : Prop :=
  Inv P s ∧
  (∀ v, s.visited v = true → v ∉ s.open_list → ∀ m ∈ P.m_Model.adj v, s.visited m = true) ∧
  (∀ v, s.visited v = true → v ∉ s.open_list → atGoal P v = false)

/-- Two states of the same search that may differ in the values left on nodes not yet
visited: they agree on `visited`, `open_list`, `path` and `distance`, on the `parent`
of every visited node other than `start_node`, on the `h_value` of every node of
`open_list` other than `start_node`, and the `g_value` of every visited node differs by
the same amount `δ`; `start_node` is in `open_list` only when it is alone there. -/
def SameSearch (P : RoutePlanner α) (δ : α) (s t : State α) : Prop :=
  s.visited = t.visited ∧ s.open_list = t.open_list ∧ s.path = t.path ∧
  s.distance = t.distance ∧
  (∀ v, s.visited v = true → v ≠ P.start_node → s.parent v = t.parent v) ∧
  (∀ v, v ∈ s.open_list → v ≠ P.start_node → s.h_value v = t.h_value v) ∧
  (∀ v, s.visited v = true → s.g_value v = t.g_value v + δ) ∧
  (P.start_node ∈ s.open_list → s.open_list = [P.start_node])

end ChainDefs

section Examples

/-- Edges of a diamond graph: `0 - 1`, `1 - 3`, `0 - 2`, `2 - 3`. -/
def diamondAdj : Nat → List Nat
  | 0 => [1, 2]
  | 1 => [0, 3]
  | 2 => [0, 3]
  | 3 => [1, 2]
  | _ => []

/-- Distances of the diamond graph for `a ≤ b`: the route `0 - 1 - 3` costs `3`, the route
`0 - 2 - 3` costs `5`. -/
def diamondTable : Nat → Nat → ℤ
  | 0, 1 => 1
  | 1, 3 => 2
  | 0, 2 => 2
  | 2, 3 => 3
  | 0, 3 => 3
  | 1, 2 => 2
  | _, _ => 0

/-- A symmetric distance on the diamond graph, zero from a node to itself. -/
def diamondDistance (a b : Nat) : ℤ := diamondTable (min a b) (max a b)

/-- The diamond graph, node `v` at `x = v`, `y = 0`, with `MetricScale = 1`. -/
def diamondModel : RouteModel ℤ :=
  ⟨4, fun v => (v : ℤ), fun _ => 0, diamondAdj, diamondDistance, 1⟩

/-- A planner from node `0` to node `3` of the diamond graph. -/
def diamondPlanner : RoutePlanner ℤ := ⟨diamondModel, 0, 3⟩

/-- A planner of the diamond graph whose start and end are both node `0`. -/
def loopPlanner : RoutePlanner ℤ := ⟨diamondModel, 0, 0⟩

/-- A fresh state: nothing visited, no parent, all values zero, empty `open_list`,
empty `path`. -/
def freshState : State ℤ :=
  ⟨fun _ => none, fun _ => 0, fun _ => 0, fun _ => false, [], 0, []⟩

/-- A state of the diamond graph in which nodes `0`, `1`, `2` are visited, `1` and `2`
have parent `0`, and `open_list` holds `2` and `1`. -/
def midState : State ℤ :=
  ⟨fun v => if v = 1 ∨ v = 2 then some 0 else none,
   fun v => if v = 1 then 1 else if v = 2 then 2 else 0,
   fun v => if v = 1 then 2 else if v = 2 then 3 else 0,
   fun v => decide (v ≤ 2), [2, 1], 0, []⟩

/-- A state of the diamond graph in which the parent chain of node `3` is `3, 1, 0`. -/
def chainState : State ℤ :=
  ⟨fun v => if v = 3 then some 1 else if v = 1 then some 0 else none,
   fun _ => 0, fun _ => 0, fun v => decide (v ≤ 3), [], 0, []⟩

/-- Coordinate `x` of the nodes of `coModel`: nodes `1` and `2` are at the same place. -/
def coX : Nat → ℤ
  | 0 => 0
  | _ => 1

/-- Edges of the path graph `0 - 1 - 2`. -/
def coAdj : Nat → List Nat
  | 0 => [1]
  | 1 => [0, 2]
  | 2 => [1]
  | _ => []

/-- The path graph `0 - 1 - 2` on a line, nodes `1` and `2` having the same coordinates;
the distance is the distance of the coordinates. -/
def coModel : RouteModel ℤ :=
  ⟨3, coX, fun _ => 0, coAdj, fun a b => max (coX a - coX b) (coX b - coX a), 1⟩

/-- A planner from node `0` to node `2` of `coModel`. -/
def coPlanner : RoutePlanner ℤ := ⟨coModel, 0, 2⟩

/-- The graph with the single edge `0 - 1` and an isolated node `2` that has the
coordinates of node `1`. -/
def splitModel : RouteModel ℤ :=
  ⟨3, coX, fun _ => 0, fun v => if v = 0 then [1] else if v = 1 then [0] else [],
    fun a b => max (coX a - coX b) (coX b - coX a), 1⟩

/-- A planner from node `0` to the isolated node `2` of `splitModel`. -/
def splitPlanner : RoutePlanner ℤ := ⟨splitModel, 0, 2⟩

/-- Two nodes `0` and `1` at different places and no edge. -/
def isoModel : RouteModel ℤ :=
  ⟨2, fun v => (v : ℤ), fun _ => 0, fun _ => [], fun a b => max ((a : ℤ) - b) ((b : ℤ) - a), 1⟩

/-- A planner from node `0` to node `1` of `isoModel`. -/
def isoPlanner : RoutePlanner ℤ := ⟨isoModel, 0, 1⟩

/-- A fresh state that still holds the path `0, 1` and the distance `1` of an earlier
search. -/
def staleState : State ℤ :=
  ⟨fun _ => none, fun _ => 0, fun _ => 0, fun _ => false, [], 1, [0, 1]⟩

/-- Coordinate `x` of the nodes of `twinModel`, all on a line: nodes `1` and `3` are at
the same place. -/
def twinX : Nat → ℤ
  | 0 => 0
  | 1 => 1
  | 2 => -2
  | _ => 1

/-- Edges `0 - 1`, `0 - 2`, `2 - 3`. -/
def twinAdj : Nat → List Nat
  | 0 => [1, 2]
  | 1 => [0]
  | 2 => [0, 3]
  | 3 => [2]
  | _ => []

/-- Four nodes on a line with the edges `0 - 1`, `0 - 2`, `2 - 3`; node `3` has the
coordinates of node `1`; the distance is the distance of the coordinates. -/
def twinModel : RouteModel ℤ :=
  ⟨4, twinX, fun _ => 0, twinAdj, fun a b => max (twinX a - twinX b) (twinX b - twinX a), 1⟩

/-- A planner from node `0` to node `1` of `twinModel`. -/
def twinPlanner : RoutePlanner ℤ := ⟨twinModel, 0, 1⟩

/-- Two nodes `0` and `1` joined by an edge. -/
def edgeModel : RouteModel ℤ :=
  ⟨2, fun v => (v : ℤ), fun _ => 0, fun v => if v = 0 then [1] else if v = 1 then [0] else [],
    fun a b => max ((a : ℤ) - b) ((b : ℤ) - a), 1⟩

/-- A planner from node `0` to node `1` of `edgeModel`. -/
def edgePlanner : RoutePlanner ℤ := ⟨edgeModel, 0, 1⟩

/-- The state `freshState` except that node `1` is still marked visited. -/
def visitedState : State ℤ :=
  ⟨fun _ => none, fun _ => 0, fun _ => 0, fun v => decide (v = 1), [], 0, []⟩

/-- A fresh state whose nodes carry other `parent`, `g_value` and `h_value` than those of
`freshState`. -/
def dirtyState : State ℤ :=
  ⟨fun v => some (v + 1), fun v => 10 * (v : ℤ) + 4, fun v => 7 - (v : ℤ), fun _ => false,
    [], 0, []⟩

end Examples
section MoreDefs

variable {α : Type} [LinearOrderedCommRing α]

/-- The list of nodes is an edge path of the model: each node is followed by one of its
neighbours. -/
def EdgePath (M : RouteModel α) (l : List Nat) : Prop :=
  List.Chain' (fun a b => b ∈ M.adj a) l

/-- The distance of the model is a metric: zero from a node to itself, symmetric, and
satisfying the triangle inequality. -/
def IsMetric (M : RouteModel α) : Prop :=
  (∀ a, M.distance a a = 0) ∧ (∀ a b, M.distance a b = M.distance b a) ∧
  (∀ a b c, M.distance a c ≤ M.distance a b + M.distance b c)

/-- The distance of the model is the Euclidean distance of the coordinates of its nodes:
the non-negative value whose square is the sum of the squares of the differences. -/
def IsEuclidean (M : RouteModel α) : Prop :=
  ∀ a b, a < M.size → b < M.size → 0 ≤ M.distance a b ∧
    M.distance a b * M.distance a b =
      (M.x a - M.x b) * (M.x a - M.x b) + (M.y a - M.y b) * (M.y a - M.y b)

/-- The model is the graph with the three nodes `0` at `(0,0)`, `1` at `(1,0)` and `2` at
`(1,1)`, every pair of them joined by an edge. -/
def Triangle (M : RouteModel α) : Prop :=
  M.size = 3 ∧ M.x 0 = 0 ∧ M.y 0 = 0 ∧ M.x 1 = 1 ∧ M.y 1 = 0 ∧ M.x 2 = 1 ∧ M.y 2 = 1 ∧
  (M.adj 0).Perm [1, 2] ∧ (M.adj 1).Perm [0, 2] ∧ (M.adj 2).Perm [0, 1]

/-- The outcome of the frontier selection `PopBest` of the spec, section 4.4: a node
with the state left, or the error `EmptyFrontier` with the state left. -/
inductive PopResult (α : Type) where
  | node (n : Nat) (s : State α)
  | EmptyFrontier (s : State α)

/-- The frontier selection as the spec words it (section 4.4), for comparison with
`NextNode`: it fails with `EmptyFrontier` if the frontier is empty when called, and
otherwise selects and removes a member minimizing `g_value + h_value`. -/
def PopBest (sort : (Nat → Nat → Bool) → List Nat → List Nat) (s : State α) : PopResult α :=
  match (sort (scoreGreater s) s.open_list).getLast? with
  | none => PopResult.EmptyFrontier s
  | some lowest =>
    PopResult.node lowest { s with open_list := (sort (scoreGreater s) s.open_list).dropLast }

/-- The states on which the loop of `AStarSearch` calls `NextNode`, in the order of the
calls: the loop of `AStarSearchLoop` with the argument of each call of line 96
recorded. -/
def NextNodeCalls (sort : (Nat → Nat → Bool) → List Nat → List Nat) (P : RoutePlanner α) :
    Nat → State α → List (State α)
  | 0, _ => []
  | fuel + 1, s =>
    if s.open_list.length > 0 then
      s :: (match NextNode sort s with
        | none => []
        | some (current_node, s1) =>
          if atGoal P current_node then []
          else NextNodeCalls sort P fuel (AddNeighbors P s1 current_node))
    else []

/-- The states in which the test of the `while` loop of `AStarSearch` is evaluated in a
search entered in state `s0`: `s0` itself, and the state after each iteration that did
not leave through the goal branch. -/
inductive LoopState (sort : (Nat → Nat → Bool) → List Nat → List Nat) (P : RoutePlanner α)
    (s0 : State α) : State α → Prop
  | init : LoopState sort P s0 s0
  | next {s s1 : State α} {current_node : Nat} : LoopState sort P s0 s →
      s.open_list.length > 0 → NextNode sort s = some (current_node, s1) →
      atGoal P current_node = false →
      LoopState sort P s0 (AddNeighbors P s1 current_node)

/-- The values that the search has assigned to the visited nodes other than
`start_node`: `h_value` is the heuristic, and `g_value` is the `g_value` of the parent,
a visited node, plus the distance to the parent. -/
def Assigned (P : RoutePlanner α) (s : State α) : Prop :=
  ∀ v, s.visited v = true → v ≠ P.start_node →
    s.h_value v = CalculateHValue P v ∧
    ∃ p, s.parent v = some p ∧ s.visited p = true ∧
      s.g_value v = s.g_value p + P.m_Model.distance v p

end MoreDefs

section ConstructorDefs

variable {α : Type} [LinearOrderedField α]

/-- The error of the nearest-node lookup of the spec, section 6. -/
inductive ModelError where
  | EmptyGraph
  deriving DecidableEq

/-- Modelled from the spec: `RouteModel::FindClosestNode` is not in `src/`. The spec has
it return the "nearest node to a normalized coordinate" and fail "with `EmptyGraph` if
no nodes exist". Nearest is taken here as the least squared coordinate distance (the
same node as for the Euclidean distance), the first such node of the table. -/
def FindClosestNode (M : RouteModel α) (x y : α) : Except ModelError Nat :=
  if M.size = 0 then Except.error ModelError.EmptyGraph
  else
    let far (v : Nat) : α := (M.x v - x) * (M.x v - x) + (M.y v - y) * (M.y v - y)
    Except.ok ((List.range M.size).foldl (fun best v => if far v < far best then v else best) 0)

/-- The constructor `RoutePlanner::RoutePlanner`, lines 4-15: the inputs are scaled by
`0.01` and the two nodes are looked up; a failure of the lookup leaves the constructor
(as an exception would). -/
def RoutePlanner.RoutePlanner (model : RouteModel α) (start_x start_y end_x end_y : α) :
    Except ModelError (RoutePlanner α) :=
  let start_x := start_x * 0.01
  let start_y := start_y * 0.01
  let end_x := end_x * 0.01
  let end_y := end_y * 0.01
  match FindClosestNode model start_x start_y with
  | Except.error e => Except.error e
  | Except.ok start_node =>
    match FindClosestNode model end_x end_y with
    | Except.error e => Except.error e
    | Except.ok end_node => Except.ok ⟨model, start_node, end_node⟩

end ConstructorDefs

section MoreExamples

/-- The number `2` has no square root among the natural numbers. -/
instance nonsquare_two : Zsqrtd.Nonsquare 2 :=
  ⟨fun n h => by
    have h1 : n < 2 := by nlinarith
    interval_cases n <;> omega⟩

/-- Edges of the triangle: every pair of the nodes `0`, `1`, `2` is joined. -/
def triangleAdj : Nat → List Nat
  | 0 => [1, 2]
  | 1 => [0, 2]
  | 2 => [0, 1]
  | _ => []

/-- Coordinate `x` of the triangle: nodes at `(0,0)`, `(1,0)`, `(1,1)`. -/
def triangleX : Nat → ℤ√(2 : ℕ)
  | 0 => 0
  | _ => 1

/-- Coordinate `y` of the triangle. -/
def triangleY : Nat → ℤ√(2 : ℕ)
  | 2 => 1
  | _ => 0

/-- Euclidean distances of the triangle for `a ≤ b`, the square root of two being the
number `⟨0, 1⟩` of `ℤ√2`. -/
def triangleTable : Nat → Nat → ℤ√(2 : ℕ)
  | 0, 1 => 1
  | 1, 2 => 1
  | 0, 2 => ⟨0, 1⟩
  | _, _ => 0

/-- The triangle with nodes at `(0,0)`, `(1,0)`, `(1,1)`, every pair joined by an edge,
over the ring `ℤ√2`, with the Euclidean distance and `MetricScale = 1`. -/
def triangleModel : RouteModel (ℤ√(2 : ℕ)) :=
  ⟨3, triangleX, triangleY, triangleAdj, fun a b => triangleTable (min a b) (max a b), 1⟩

/-- A planner from the node at `(0,0)` to the node at `(1,1)` of the triangle. -/
def trianglePlanner : RoutePlanner (ℤ√(2 : ℕ)) := ⟨triangleModel, 0, 2⟩

/-- A fresh state over `ℤ√2`. -/
def freshTriangleState : State (ℤ√(2 : ℕ)) :=
  ⟨fun _ => none, fun _ => 0, fun _ => 0, fun _ => false, [], 0, []⟩

/-- Coordinate `x` of the nodes of `detourModel`, all on a line: start `0` at `0`, node
`1` at `1`, node `2` at `-1`, node `3` at `-2`, end `4` at `10`. -/
def detourX : Nat → ℤ
  | 0 => 0
  | 1 => 1
  | 2 => -1
  | 3 => -2
  | _ => 10

/-- Edges `0 - 1`, `0 - 2`, `1 - 3`, `2 - 3`, `3 - 4`. -/
def detourAdj : Nat → List Nat
  | 0 => [1, 2]
  | 1 => [0, 3]
  | 2 => [0, 3]
  | 3 => [1, 2, 4]
  | 4 => [3]
  | _ => []

/-- Five nodes on a line; the distance is the distance of the coordinates. Node `3` is
reached from the start through node `1` at cost `4` and through node `2` at cost `2`. -/
def detourModel : RouteModel ℤ :=
  ⟨5, detourX, fun _ => 0, detourAdj,
    fun a b => max (detourX a - detourX b) (detourX b - detourX a), 1⟩

/-- A planner from node `0` to node `4` of `detourModel`. -/
def detourPlanner : RoutePlanner ℤ := ⟨detourModel, 0, 4⟩

/-- A fresh state whose nodes carry other `parent`, `h_value` and `g_value` than those of
`freshState`, except for the `g_value` of node `0`, which is `0` in both. -/
def staleValuesState : State ℤ :=
  ⟨fun v => some (v + 1), fun v => 10 * (v : ℤ), fun v => 7 - (v : ℤ), fun _ => false,
    [], 0, []⟩

/-- The state at the first test of the loop in the search on the diamond graph started
from `dirtyState`: node `0` is visited and alone in `open_list`. -/
def diamondTest1 : State ℤ := initState diamondPlanner dirtyState

/-- The state at the second test of that loop: node `0` has been popped and expanded,
nodes `1` and `2` are in `open_list`. -/
def diamondTest2 : State ℤ :=
  AddNeighbors diamondPlanner { diamondTest1 with open_list := [] } 0

/-- The state at the third test of that loop: node `1` has been popped and expanded, nodes
`2` and `3` are in `open_list`, and node `3`, at the goal, is popped next. -/
def diamondTest3 : State ℤ :=
  AddNeighbors diamondPlanner { diamondTest2 with open_list := [2] } 1

/-- A model without nodes. -/
def emptyModel : RouteModel ℚ :=
  ⟨0, fun _ => 0, fun _ => 0, fun _ => [], fun _ _ => 0, 1⟩

end MoreExamples

section SortLemmas

variable {α : Type} [LinearOrderedCommRing α]

theorem scoreGreater_eq_false (s : State α) (a b : Nat) :
    scoreGreater s a b = false ↔ s.h_value a + s.g_value a ≤ s.h_value b + s.g_value b := by
  simp [scoreGreater]

theorem scoreGreater_eq_true (s : State α) (a b : Nat) :
    scoreGreater s a b = true ↔ s.h_value b + s.g_value b < s.h_value a + s.g_value a := by
  simp [scoreGreater]

theorem strictWeak_scoreGreater (s : State α) : StrictWeak (scoreGreater s) := by
  refine ⟨?_, ?_, ?_⟩
  · intro a
    simp [scoreGreater]
  · intro a b c hab hbc
    rw [scoreGreater_eq_true] at *
    exact lt_trans hbc hab
  · intro a b c hab hbc
    rw [scoreGreater_eq_false] at *
    exact le_trans hab hbc

theorem orderedInsert_perm (cmp : Nat → Nat → Bool) (a : Nat) (l : List Nat) :
    (orderedInsert cmp a l).Perm (a :: l) := by
  induction l with
  | nil => simp [orderedInsert]
  | cons b l ih =>
    unfold orderedInsert
    split
    · exact List.Perm.refl _
    · exact (List.Perm.cons b ih).trans (List.Perm.swap a b l)

theorem insertionSort_perm (cmp : Nat → Nat → Bool) (l : List Nat) :
    (insertionSort cmp l).Perm l := by
  induction l with
  | nil => simp [insertionSort]
  | cons a l ih =>
    unfold insertionSort
    exact (orderedInsert_perm cmp a _).trans (List.Perm.cons a ih)

theorem orderedInsert_pairwise (cmp : Nat → Nat → Bool) (hc : StrictWeak cmp) (a : Nat)
    (l : List Nat) (hl : l.Pairwise (fun x y => cmp y x = false)) :
    (orderedInsert cmp a l).Pairwise (fun x y => cmp y x = false) := by
  induction l with
  | nil => simp [orderedInsert]
  | cons b l ih =>
    rw [List.pairwise_cons] at hl
    unfold orderedInsert
    split
    · rename_i hab
      rw [List.pairwise_cons]
      refine ⟨?_, List.pairwise_cons.mpr hl⟩
      intro y hy
      rcases List.mem_cons.mp hy with rfl | hy
      · cases hya : cmp y a with
        | false => rfl
        | true =>
          have := hc.2.1 _ _ _ hab hya
          rw [hc.1 a] at this
          exact absurd this (by simp)
      · cases hya : cmp y a with
        | false => rfl
        | true =>
          have := hc.2.1 _ _ _ hya hab
          rw [hl.1 y hy] at this
          exact absurd this (by simp)
    · rename_i hab
      rw [List.pairwise_cons]
      refine ⟨?_, ih hl.2⟩
      intro y hy
      rcases List.mem_cons.mp ((orderedInsert_perm cmp a l).mem_iff.mp hy) with rfl | hy
      · simpa using hab
      · exact hl.1 y hy

theorem insertionSort_pairwise (cmp : Nat → Nat → Bool) (hc : StrictWeak cmp) (l : List Nat) :
    (insertionSort cmp l).Pairwise (fun x y => cmp y x = false) := by
  induction l with
  | nil => simp [insertionSort]
  | cons a l ih =>
    unfold insertionSort
    exact orderedInsert_pairwise cmp hc a _ ih

theorem orderedInsert_congr (cmp cmp2 : Nat → Nat → Bool) (a : Nat) (l : List Nat)
    (h : ∀ b ∈ l, cmp a b = cmp2 a b) : orderedInsert cmp a l = orderedInsert cmp2 a l := by
  induction l with
  | nil => simp [orderedInsert]
  | cons b l ih =>
    unfold orderedInsert
    rw [h b (List.mem_cons_self _ _), ih (fun c hc => h c (List.mem_cons_of_mem _ hc))]

theorem insertionSort_congr (cmp cmp2 : Nat → Nat → Bool) (l : List Nat)
    (h : ∀ a ∈ l, ∀ b ∈ l, cmp a b = cmp2 a b) : insertionSort cmp l = insertionSort cmp2 l := by
  induction l with
  | nil => simp [insertionSort]
  | cons a l ih =>
    unfold insertionSort
    have ih2 := ih (fun x hx y hy => h x (List.mem_cons_of_mem _ hx) y (List.mem_cons_of_mem _ hy))
    rw [← ih2]
    apply orderedInsert_congr
    intro b hb
    exact h a (List.mem_cons_self _ _) b
      (List.mem_cons_of_mem _ ((insertionSort_perm cmp l).mem_iff.mp hb))

theorem insertionSort_isStdSort : IsStdSort insertionSort :=
  ⟨fun cmp l _ => insertionSort_perm cmp l, fun cmp l hc => insertionSort_pairwise cmp hc l,
    insertionSort_congr⟩

/-- What `NextNode` does on a non-empty `open_list`, for any admissible sort. -/
theorem NextNode_some {sort : (Nat → Nat → Bool) → List Nat → List Nat} (hs : IsStdSort sort)
    (s : State α) (hne : s.open_list ≠ []) :
    ∃ n rest, NextNode sort s = some (n, { s with open_list := rest }) ∧
      (rest ++ [n]).Perm s.open_list ∧
      ∀ m ∈ s.open_list, s.g_value n + s.h_value n ≤ s.g_value m + s.h_value m := by
  have hperm := hs.1 (scoreGreater s) s.open_list (strictWeak_scoreGreater s)
  have hsorted := hs.2.1 (scoreGreater s) s.open_list (strictWeak_scoreGreater s)
  have hne2 : sort (scoreGreater s) s.open_list ≠ [] := by
    intro h
    rw [h] at hperm
    exact hne (List.Perm.eq_nil hperm.symm)
  have hsplit := List.dropLast_append_getLast hne2
  refine ⟨(sort (scoreGreater s) s.open_list).getLast hne2,
    (sort (scoreGreater s) s.open_list).dropLast, ?_, ?_, ?_⟩
  · simp [NextNode, List.getLast?_eq_getLast _ hne2]
  · rw [hsplit]
    exact hperm
  · intro m hm
    rw [← hsplit, List.pairwise_append] at hsorted
    have hm2 : m ∈ (sort (scoreGreater s) s.open_list).dropLast ++
        [(sort (scoreGreater s) s.open_list).getLast hne2] := by
      rw [hsplit]
      exact hperm.mem_iff.mpr hm
    rcases List.mem_append.mp hm2 with h | h
    · have := hsorted.2.2 m h _ (List.mem_singleton_self _)
      rw [scoreGreater_eq_false] at this
      rw [add_comm (s.g_value _), add_comm (s.g_value m)]
      exact this
    · rw [List.mem_singleton.mp h]

end SortLemmas

section AddNeighborsLemmas

variable {α : Type} [LinearOrderedCommRing α]

@[simp] theorem AddNeighbor_parent (P : RoutePlanner α) (c : Nat) (s : State α) (n : Nat) :
    (AddNeighbor P c s n).parent = Function.update s.parent n (some c) := rfl

@[simp] theorem AddNeighbor_h_value (P : RoutePlanner α) (c : Nat) (s : State α) (n : Nat) :
    (AddNeighbor P c s n).h_value = Function.update s.h_value n (CalculateHValue P n) := rfl

@[simp] theorem AddNeighbor_g_value (P : RoutePlanner α) (c : Nat) (s : State α) (n : Nat) :
    (AddNeighbor P c s n).g_value =
      Function.update s.g_value n (s.g_value c + P.m_Model.distance n c) := rfl

@[simp] theorem AddNeighbor_visited (P : RoutePlanner α) (c : Nat) (s : State α) (n : Nat) :
    (AddNeighbor P c s n).visited = Function.update s.visited n true := rfl

@[simp] theorem AddNeighbor_open_list (P : RoutePlanner α) (c : Nat) (s : State α) (n : Nat) :
    (AddNeighbor P c s n).open_list = s.open_list ++ [n] := rfl

@[simp] theorem AddNeighbor_distance (P : RoutePlanner α) (c : Nat) (s : State α) (n : Nat) :
    (AddNeighbor P c s n).distance = s.distance := rfl

@[simp] theorem AddNeighbor_path (P : RoutePlanner α) (c : Nat) (s : State α) (n : Nat) :
    (AddNeighbor P c s n).path = s.path := rfl

theorem foldl_AddNeighbor_open_list (P : RoutePlanner α) (c : Nat) (ns : List Nat)
    (s : State α) : (ns.foldl (AddNeighbor P c) s).open_list = s.open_list ++ ns := by
  induction ns generalizing s with
  | nil => simp
  | cons n ns ih => simp [ih]

theorem foldl_AddNeighbor_distance (P : RoutePlanner α) (c : Nat) (ns : List Nat)
    (s : State α) : (ns.foldl (AddNeighbor P c) s).distance = s.distance := by
  induction ns generalizing s with
  | nil => simp
  | cons n ns ih => simp [ih]

theorem foldl_AddNeighbor_path (P : RoutePlanner α) (c : Nat) (ns : List Nat)
    (s : State α) : (ns.foldl (AddNeighbor P c) s).path = s.path := by
  induction ns generalizing s with
  | nil => simp
  | cons n ns ih => simp [ih]

theorem foldl_AddNeighbor_visited (P : RoutePlanner α) (c : Nat) (ns : List Nat)
    (s : State α) (v : Nat) :
    (ns.foldl (AddNeighbor P c) s).visited v = true ↔ s.visited v = true ∨ v ∈ ns := by
  induction ns generalizing s with
  | nil => simp
  | cons n ns ih =>
    rw [List.foldl_cons, ih, AddNeighbor_visited, List.mem_cons]
    by_cases hv : v = n
    · subst hv
      simp
    · simp [Function.update_noteq hv]
      tauto

theorem foldl_AddNeighbor_parent (P : RoutePlanner α) (c : Nat) (ns : List Nat)
    (s : State α) (v : Nat) :
    (ns.foldl (AddNeighbor P c) s).parent v = if v ∈ ns then some c else s.parent v := by
  induction ns generalizing s with
  | nil => simp
  | cons n ns ih =>
    rw [List.foldl_cons, ih, AddNeighbor_parent]
    by_cases hv : v = n
    · subst hv
      simp
    · simp [Function.update_noteq hv, hv]

theorem foldl_AddNeighbor_h_value (P : RoutePlanner α) (c : Nat) (ns : List Nat)
    (s : State α) (v : Nat) :
    (ns.foldl (AddNeighbor P c) s).h_value v =
      if v ∈ ns then CalculateHValue P v else s.h_value v := by
  induction ns generalizing s with
  | nil => simp
  | cons n ns ih =>
    rw [List.foldl_cons, ih, AddNeighbor_h_value]
    by_cases hv : v = n
    · subst hv
      simp
    · simp [Function.update_noteq hv, hv]

theorem foldl_AddNeighbor_g_value (P : RoutePlanner α) (c : Nat) (ns : List Nat)
    (hc : c ∈ ns → P.m_Model.distance c c = 0) (s : State α) (v : Nat) :
    (ns.foldl (AddNeighbor P c) s).g_value v =
      if v ∈ ns then s.g_value c + P.m_Model.distance v c else s.g_value v := by
  induction ns generalizing s with
  | nil => simp
  | cons n ns ih =>
    have hgc : (AddNeighbor P c s n).g_value c = s.g_value c := by
      rw [AddNeighbor_g_value]
      by_cases hcn : c = n
      · subst hcn
        simp [hc (List.mem_cons_self _ _)]
      · simp [Function.update_noteq hcn]
    rw [List.foldl_cons, ih (fun h => hc (List.mem_cons_of_mem _ h)), hgc, AddNeighbor_g_value]
    by_cases hv : v = n
    · subst hv
      simp
    · simp [Function.update_noteq hv, hv]

omit [LinearOrderedCommRing α] in
theorem mem_FindNeighbors (M : RouteModel α) (s : State α) (c v : Nat) :
    v ∈ FindNeighbors M s c ↔ v ∈ M.adj c ∧ s.visited v = false := by
  simp [FindNeighbors, List.mem_filter]

theorem AddNeighbors_open_list (P : RoutePlanner α) (s : State α) (c : Nat) :
    (AddNeighbors P s c).open_list = s.open_list ++ FindNeighbors P.m_Model s c :=
  foldl_AddNeighbor_open_list P c _ s

theorem AddNeighbors_distance (P : RoutePlanner α) (s : State α) (c : Nat) :
    (AddNeighbors P s c).distance = s.distance :=
  foldl_AddNeighbor_distance P c _ s

theorem AddNeighbors_path (P : RoutePlanner α) (s : State α) (c : Nat) :
    (AddNeighbors P s c).path = s.path :=
  foldl_AddNeighbor_path P c _ s

theorem AddNeighbors_visited (P : RoutePlanner α) (s : State α) (c v : Nat) :
    (AddNeighbors P s c).visited v = true ↔ s.visited v = true ∨ v ∈ P.m_Model.adj c := by
  unfold AddNeighbors
  rw [foldl_AddNeighbor_visited, mem_FindNeighbors]
  cases s.visited v <;> simp

theorem AddNeighbors_parent (P : RoutePlanner α) (s : State α) (c v : Nat) :
    (AddNeighbors P s c).parent v =
      if v ∈ FindNeighbors P.m_Model s c then some c else s.parent v :=
  foldl_AddNeighbor_parent P c _ s v

theorem AddNeighbors_h_value (P : RoutePlanner α) (s : State α) (c v : Nat) :
    (AddNeighbors P s c).h_value v =
      if v ∈ FindNeighbors P.m_Model s c then CalculateHValue P v else s.h_value v :=
  foldl_AddNeighbor_h_value P c _ s v

theorem AddNeighbors_g_value (P : RoutePlanner α) (s : State α) (c v : Nat)
    (hc : c ∈ FindNeighbors P.m_Model s c → P.m_Model.distance c c = 0) :
    (AddNeighbors P s c).g_value v =
      if v ∈ FindNeighbors P.m_Model s c then s.g_value c + P.m_Model.distance v c
      else s.g_value v :=
  foldl_AddNeighbor_g_value P c _ hc s v

/-- A node already visited keeps all its search fields through `AddNeighbors`. -/
theorem AddNeighbors_of_visited (P : RoutePlanner α) (s : State α) (c v : Nat)
    (hv : s.visited v = true) :
    (AddNeighbors P s c).parent v = s.parent v ∧ (AddNeighbors P s c).g_value v = s.g_value v ∧
      (AddNeighbors P s c).h_value v = s.h_value v ∧ (AddNeighbors P s c).visited v = true := by
  have hnot : v ∉ FindNeighbors P.m_Model s c := by
    rw [mem_FindNeighbors]
    simp [hv]
  refine ⟨?_, ?_, ?_, ?_⟩
  · rw [AddNeighbors_parent, if_neg hnot]
  · unfold AddNeighbors
    generalize FindNeighbors P.m_Model s c = ns at hnot
    induction ns generalizing s with
    | nil => simp
    | cons n ns ih =>
      rw [List.mem_cons, not_or] at hnot
      rw [List.foldl_cons, ih _ (by simp [Function.update_noteq hnot.1, hv]) hnot.2]
      simp [Function.update_noteq hnot.1]
  · rw [AddNeighbors_h_value, if_neg hnot]
  · rw [AddNeighbors_visited]
    exact Or.inl hv

end AddNeighborsLemmas

section ConstructLemmas

variable {α : Type} [LinearOrderedCommRing α]

omit [LinearOrderedCommRing α] in
theorem chainNodes_cons_tail (parent : Nat → Option Nat) (k v : Nat) :
    v :: (chainNodes parent k v).tail = chainNodes parent k v := by
  cases k with
  | zero => simp [chainNodes]
  | succ k => cases hp : parent v <;> simp [chainNodes, hp]

theorem ConstructFinalPathLoop_of_chain (P : RoutePlanner α) (parent : Nat → Option Nat)
    {v k : Nat} (h : ChainTo P.start_node parent v k) :
    ∀ (fuel : Nat) (d : α) (pf : List Nat), k ≤ fuel →
      ConstructFinalPathLoop P parent fuel v d pf =
        some (d + chainDistance P.m_Model parent k v, pf ++ (chainNodes parent k v).tail) := by
  induction h with
  | root =>
    intro fuel d pf _
    unfold ConstructFinalPathLoop
    simp [chainDistance, chainNodes]
  | @step v p k hv hp _ ih =>
    intro fuel d pf hk
    obtain ⟨fuel, rfl⟩ : ∃ f, fuel = f + 1 := ⟨fuel - 1, by omega⟩
    unfold ConstructFinalPathLoop
    rw [if_neg hv]
    simp only [hp]
    rw [ih fuel _ _ (by omega)]
    simp only [chainDistance, chainNodes, hp, List.tail_cons, add_assoc, List.append_assoc,
      List.singleton_append, chainNodes_cons_tail]

theorem ConstructFinalPathLoop_mono (P : RoutePlanner α) (parent : Nat → Option Nat) :
    ∀ (fuel : Nat) (v : Nat) (d : α) (pf : List Nat) (r : α × List Nat),
      ConstructFinalPathLoop P parent fuel v d pf = some r →
      ConstructFinalPathLoop P parent (fuel + 1) v d pf = some r := by
  intro fuel
  induction fuel with
  | zero =>
    intro v d pf r h
    unfold ConstructFinalPathLoop at h ⊢
    by_cases hv : v = P.start_node
    · simpa [hv] using h
    · simp [hv] at h
  | succ fuel ih =>
    intro v d pf r h
    unfold ConstructFinalPathLoop at h ⊢
    by_cases hv : v = P.start_node
    · simpa [hv] using h
    · simp only [if_neg hv] at h ⊢
      cases hp : parent v with
      | none => simp [hp] at h
      | some p =>
        simp only [hp] at h ⊢
        exact ih _ _ _ _ h

theorem ConstructFinalPath_mono (P : RoutePlanner α) (fuel : Nat) (s : State α) (v : Nat)
    (r : List Nat × State α) (h : ConstructFinalPath P fuel s v = some r) :
    ConstructFinalPath P (fuel + 1) s v = some r := by
  unfold ConstructFinalPath at h ⊢
  cases hl : ConstructFinalPathLoop P s.parent fuel v 0 [v] with
  | none => simp [hl] at h
  | some q =>
    rw [ConstructFinalPathLoop_mono P s.parent fuel v 0 [v] q hl]
    simpa [hl] using h

/-- What `ConstructFinalPath` returns from a node whose parent chain reaches
`start_node` in `k` steps, given fuel for `k` iterations. -/
theorem ConstructFinalPath_of_chain (P : RoutePlanner α) (s : State α) {v k : Nat}
    (h : ChainTo P.start_node s.parent v k) (fuel : Nat) (hk : k ≤ fuel) :
    ConstructFinalPath P fuel s v =
      some ((chainNodes s.parent k v).reverse,
        { s with distance := chainDistance P.m_Model s.parent k v * P.m_Model.MetricScale }) := by
  unfold ConstructFinalPath
  rw [ConstructFinalPathLoop_of_chain P s.parent h fuel 0 [v] hk]
  rw [List.singleton_append, chainNodes_cons_tail, zero_add]

omit [LinearOrderedCommRing α] in
theorem chainNodes_head (parent : Nat → Option Nat) (k v : Nat) :
    (chainNodes parent k v).head? = some v := by
  cases k with
  | zero => simp [chainNodes]
  | succ k => cases hp : parent v <;> simp [chainNodes, hp]

omit [LinearOrderedCommRing α] in
theorem chainNodes_getLast (start_node : Nat) (parent : Nat → Option Nat)
    {v k : Nat} (h : ChainTo start_node parent v k) :
    (chainNodes parent k v).getLast? = some start_node := by
  induction h with
  | root => simp [chainNodes]
  | @step v p k _ hp _ ih =>
    simp only [chainNodes, hp]
    rw [List.getLast?_cons, ih]
    simp

omit [LinearOrderedCommRing α] in
theorem chainNodes_length (start_node : Nat) (parent : Nat → Option Nat)
    {v k : Nat} (h : ChainTo start_node parent v k) :
    (chainNodes parent k v).length = k + 1 := by
  induction h with
  | root => simp [chainNodes]
  | @step v p k _ hp _ ih => simp [chainNodes, hp, ih]

theorem pathLength_append_singleton (M : RouteModel α) (l : List Nat) (a : Nat) :
    pathLength M (l ++ [a]) =
      pathLength M l + (match l.getLast? with
        | none => 0
        | some b => M.distance b a) := by
  induction l with
  | nil => simp [pathLength]
  | cons x l ih =>
    cases l with
    | nil => simp [pathLength]
    | cons y l =>
      have : (x :: y :: l) ++ [a] = x :: y :: (l ++ [a]) := rfl
      rw [this, pathLength, pathLength]
      have ih2 : pathLength M (y :: (l ++ [a])) = _ := ih
      rw [ih2, List.getLast?_cons_cons, add_assoc]

theorem pathLength_reverse_chainNodes (M : RouteModel α)
    (hsymm : ∀ a b, M.distance a b = M.distance b a) (start_node : Nat)
    (parent : Nat → Option Nat) {v k : Nat} (h : ChainTo start_node parent v k) :
    pathLength M (chainNodes parent k v).reverse = chainDistance M parent k v := by
  induction h with
  | root => simp [chainNodes, chainDistance, pathLength]
  | @step v p k _ hp _ ih =>
    simp only [chainNodes, chainDistance, hp, List.reverse_cons]
    rw [pathLength_append_singleton, ih, List.getLast?_reverse, chainNodes_head]
    simp only
    rw [hsymm p v, add_comm]

omit [LinearOrderedCommRing α] in
theorem ChainTo_unique (start_node : Nat) (parent : Nat → Option Nat) {v k : Nat}
    (h : ChainTo start_node parent v k) :
    ∀ k2, ChainTo start_node parent v k2 → k = k2 := by
  induction h with
  | root =>
    intro k2 h2
    cases h2 with
    | root => rfl
    | step hne _ _ => exact absurd rfl hne
  | @step v p k hne hp _ ih =>
    intro k2 h2
    cases h2 with
    | root => exact absurd rfl hne
    | @step _ p2 k3 _ hp2 h3 =>
      rw [hp] at hp2
      cases hp2
      rw [ih k3 h3]

end ConstructLemmas

section InvariantLemmas

variable {α : Type} [LinearOrderedCommRing α]

/-- A parent chain through visited nodes is left as it is by `AddNeighbors`. -/
theorem ChainTo_AddNeighbors (P : RoutePlanner α) (s : State α) (c : Nat)
    (hpv : ∀ v, s.visited v = true → v ≠ P.start_node →
      ∃ p, s.parent v = some p ∧ s.visited p = true)
    {v k : Nat} (h : ChainTo P.start_node s.parent v k) (hv : s.visited v = true) :
    ChainTo P.start_node (AddNeighbors P s c).parent v k ∧
      chainNodes (AddNeighbors P s c).parent k v = chainNodes s.parent k v ∧
      chainDistance P.m_Model (AddNeighbors P s c).parent k v =
        chainDistance P.m_Model s.parent k v := by
  induction h with
  | root => exact ⟨ChainTo.root, by simp [chainNodes, chainDistance]⟩
  | @step v p k hne hp _ ih =>
    obtain ⟨p2, hp2, hp2v⟩ := hpv v hv hne
    rw [hp] at hp2
    cases hp2
    have hp3 : (AddNeighbors P s c).parent v = some p := by
      rw [(AddNeighbors_of_visited P s c v hv).1, hp]
    obtain ⟨ih1, ih2, ih3⟩ := ih hp2v
    refine ⟨ChainTo.step hne hp3 ih1, ?_, ?_⟩
    · simp only [chainNodes, hp, hp3, ih2]
    · simp only [chainDistance, hp, hp3, ih3]

theorem Inv_step (P : RoutePlanner α) (hwf : WellFormed P) (s : State α) (c : Nat)
    (rest : List Nat) (hinv : Inv P s) (hperm : (rest ++ [c]).Perm s.open_list) :
    Inv P (AddNeighbors P { s with open_list := rest } c) := by
  have hc_mem : c ∈ s.open_list := hperm.mem_iff.mp (by simp)
  have hc_vis : s.visited c = true := hinv.open_visited c hc_mem
  have hc_lt : c < P.m_Model.size := hinv.visited_lt c hc_vis
  refine ⟨?_, ?_, ?_, ?_, ?_⟩
  · intro v hv
    rw [AddNeighbors_open_list] at hv
    rw [AddNeighbors_visited]
    rcases List.mem_append.mp hv with h | h
    · exact Or.inl (hinv.open_visited v (hperm.mem_iff.mp (List.mem_append_left _ h)))
    · exact Or.inr ((mem_FindNeighbors _ _ _ _).mp h).1
  · intro v hv
    rw [AddNeighbors_visited] at hv
    rcases hv with h | h
    · exact hinv.visited_lt v h
    · exact hwf.2 c hc_lt v h
  · rw [AddNeighbors_visited]
    exact Or.inl hinv.start_visited
  · intro v hv hne
    by_cases hvs : s.visited v = true
    · obtain ⟨p, hp, hpv⟩ := hinv.parent_visited v hvs hne
      refine ⟨p, ?_, (AddNeighbors_visited P _ c p).mpr (Or.inl hpv)⟩
      rw [(AddNeighbors_of_visited P { s with open_list := rest } c v hvs).1]
      exact hp
    · have hvn : v ∈ FindNeighbors P.m_Model { s with open_list := rest } c := by
        rw [AddNeighbors_visited] at hv
        rw [mem_FindNeighbors]
        rcases hv with h | h
        · exact absurd h hvs
        · exact ⟨h, by simpa using hvs⟩
      refine ⟨c, ?_, (AddNeighbors_visited P _ c c).mpr (Or.inl hc_vis)⟩
      rw [AddNeighbors_parent, if_pos hvn]
  · intro v hv
    by_cases hvs : s.visited v = true
    · obtain ⟨k, hk⟩ := hinv.chain v hvs
      exact ⟨k, (ChainTo_AddNeighbors P { s with open_list := rest } c
        hinv.parent_visited hk hvs).1⟩
    · have hvn : v ∈ FindNeighbors P.m_Model { s with open_list := rest } c := by
        rw [AddNeighbors_visited] at hv
        rw [mem_FindNeighbors]
        rcases hv with h | h
        · exact absurd h hvs
        · exact ⟨h, by simpa using hvs⟩
      obtain ⟨k, hk⟩ := hinv.chain c hc_vis
      refine ⟨k + 1, ChainTo.step ?_ ?_
        (ChainTo_AddNeighbors P { s with open_list := rest } c
          hinv.parent_visited hk hc_vis).1⟩
      · intro h
        rw [h] at hvs
        exact hvs hinv.start_visited
      · rw [AddNeighbors_parent, if_pos hvn]

theorem Inv_initState_of_fresh (P : RoutePlanner α) (hwf : WellFormed P) (s : State α)
    (hf : Fresh s) : Inv P (initState P s) := by
  have hvis : ∀ v, (initState P s).visited v = true ↔ v = P.start_node := by
    intro v
    by_cases hv : v = P.start_node
    · simp [initState, hv]
    · simp [initState, Function.update_noteq hv, hf.1 v, hv]
  refine ⟨?_, ?_, ?_, ?_, ?_⟩
  · intro v hv
    have : v = P.start_node := by simpa [initState, hf.2] using hv
    exact (hvis v).mpr this
  · intro v hv
    rw [(hvis v).mp hv]
    exact hwf.1
  · exact (hvis _).mpr rfl
  · intro v hv hne
    exact absurd ((hvis v).mp hv) hne
  · intro v hv
    rw [(hvis v).mp hv]
    exact ⟨0, ChainTo.root⟩

theorem Inv_initState (P : RoutePlanner α) (s : State α) (hinv : Inv P s) :
    Inv P (initState P s) := by
  have hvis : (initState P s).visited = s.visited := by
    funext v
    by_cases hv : v = P.start_node
    · simp [initState, hv, hinv.start_visited]
    · simp [initState, Function.update_noteq hv]
  refine ⟨?_, ?_, ?_, ?_, ?_⟩
  · intro v hv
    rw [hvis]
    have : v ∈ s.open_list ∨ v = P.start_node := by simpa [initState] using hv
    rcases this with h | h
    · exact hinv.open_visited v h
    · rw [h]
      exact hinv.start_visited
  · intro v hv
    rw [hvis] at hv
    exact hinv.visited_lt v hv
  · rw [hvis]
    exact hinv.start_visited
  · intro v hv hne
    rw [hvis] at hv ⊢
    exact hinv.parent_visited v hv hne
  · intro v hv
    rw [hvis] at hv
    exact hinv.chain v hv

omit [LinearOrderedCommRing α] in
theorem unvisitedCount_le (M : RouteModel α) (s t : State α)
    (hmono : ∀ v, s.visited v = true → t.visited v = true) :
    unvisitedCount M t ≤ unvisitedCount M s := by
  unfold unvisitedCount
  have : (List.range M.size).filter (fun v => !t.visited v) =
      ((List.range M.size).filter (fun v => !s.visited v)).filter (fun v => !t.visited v) := by
    rw [List.filter_filter]
    apply List.filter_congr
    intro v _
    cases hs : s.visited v
    · simp
    · simp [hmono v hs]
  rw [this]
  exact List.length_filter_le _ _

omit [LinearOrderedCommRing α] in
theorem unvisitedCount_lt (M : RouteModel α) (s t : State α)
    (hmono : ∀ v, s.visited v = true → t.visited v = true) (n : Nat) (hn : n < M.size)
    (hns : s.visited n = false) (hnt : t.visited n = true) :
    unvisitedCount M t < unvisitedCount M s := by
  unfold unvisitedCount
  have : (List.range M.size).filter (fun v => !t.visited v) =
      ((List.range M.size).filter (fun v => !s.visited v)).filter (fun v => !t.visited v) := by
    rw [List.filter_filter]
    apply List.filter_congr
    intro v _
    cases hs : s.visited v
    · simp
    · simp [hmono v hs]
  rw [this]
  apply List.length_filter_lt_length_iff_exists.mpr
  refine ⟨n, ?_, ?_⟩
  · simp [List.mem_filter, hn, hns]
  · simp [hnt]

theorem AStarSearchLoop_mono (sort : (Nat → Nat → Bool) → List Nat → List Nat)
    (P : RoutePlanner α) :
    ∀ (fuel : Nat) (s : State α) (r : Exit × State α),
      AStarSearchLoop sort P fuel s = some r → AStarSearchLoop sort P (fuel + 1) s = some r := by
  intro fuel
  induction fuel with
  | zero =>
    intro s r h
    simp [AStarSearchLoop] at h
  | succ fuel ih =>
    intro s r h
    rw [AStarSearchLoop] at h ⊢
    by_cases hlen : s.open_list.length > 0
    · rw [if_pos hlen] at h ⊢
      cases hnn : NextNode sort s with
      | none => simp [hnn] at h
      | some q =>
        obtain ⟨c, s1⟩ := q
        simp only [hnn] at h ⊢
        by_cases hg : atGoal P c = true
        · rw [if_pos hg] at h ⊢
          cases hcf : ConstructFinalPath P fuel (AddNeighbors P s1 c) c with
          | none => simp [hcf] at h
          | some q2 =>
            rw [ConstructFinalPath_mono P fuel _ c q2 hcf]
            simpa [hcf] using h
        · rw [if_neg hg] at h ⊢
          exact ih _ _ h
    · rw [if_neg hlen] at h ⊢
      exact h

theorem AStarSearchLoop_mono_le (sort : (Nat → Nat → Bool) → List Nat → List Nat)
    (P : RoutePlanner α) (fuel fuel2 : Nat) (hle : fuel ≤ fuel2) (s : State α)
    (r : Exit × State α) (h : AStarSearchLoop sort P fuel s = some r) :
    AStarSearchLoop sort P fuel2 s = some r := by
  induction hle with
  | refl => exact h
  | step _ ih => exact AStarSearchLoop_mono sort P _ s r ih

/-- The result of `AStarSearch` does not depend on the fuel, when there is one. -/
theorem AStarSearch_fuel_unique (sort : (Nat → Nat → Bool) → List Nat → List Nat)
    (P : RoutePlanner α) (f1 f2 : Nat) (s : State α) (r1 r2 : Exit × State α)
    (h1 : AStarSearch sort P f1 s = some r1) (h2 : AStarSearch sort P f2 s = some r2) :
    r1 = r2 := by
  unfold AStarSearch at h1 h2
  rcases le_total f1 f2 with h | h
  · have := AStarSearchLoop_mono_le sort P f1 f2 h _ r1 h1
    rw [this] at h2
    exact Option.some.inj h2
  · have := AStarSearchLoop_mono_le sort P f2 f1 h _ r2 h2
    rw [this] at h1
    exact (Option.some.inj h1).symm

end InvariantLemmas

section LoopRule

variable {α : Type} [LinearOrderedCommRing α]

theorem AStarSearch_eq (sort : (Nat → Nat → Bool) → List Nat → List Nat) (P : RoutePlanner α)
    (fuel : Nat) (s : State α) :
    AStarSearch sort P fuel s = AStarSearchLoop sort P fuel (initState P s) := rfl

/-- One unfolding of the loop on a non-empty `open_list` when the popped node is not at
the goal. -/
theorem AStarSearchLoop_continue (sort : (Nat → Nat → Bool) → List Nat → List Nat)
    (P : RoutePlanner α) (fuel : Nat) (s : State α) (c : Nat) (rest : List Nat)
    (hne : s.open_list ≠ [])
    (hnn : NextNode sort s = some (c, { s with open_list := rest }))
    (hg : atGoal P c = false) :
    AStarSearchLoop sort P (fuel + 1) s =
      AStarSearchLoop sort P fuel (AddNeighbors P { s with open_list := rest } c) := by
  rw [AStarSearchLoop, if_pos (List.length_pos.mpr hne)]
  simp only [hnn, hg]
  simp

/-- One unfolding of the loop on a non-empty `open_list` when the popped node is at the
goal and its parent chain reaches `start_node`. -/
theorem AStarSearchLoop_found (sort : (Nat → Nat → Bool) → List Nat → List Nat)
    (P : RoutePlanner α) (fuel : Nat) (s : State α) (c : Nat) (rest : List Nat) (k : Nat)
    (hne : s.open_list ≠ [])
    (hnn : NextNode sort s = some (c, { s with open_list := rest }))
    (hg : atGoal P c = true)
    (hchain : ChainTo P.start_node (AddNeighbors P { s with open_list := rest } c).parent c k)
    (hk : k ≤ fuel) :
    AStarSearchLoop sort P (fuel + 1) s =
      some (Exit.found, foundState P (AddNeighbors P { s with open_list := rest } c) c k) := by
  rw [AStarSearchLoop, if_pos (List.length_pos.mpr hne)]
  simp only [hnn, hg, if_true]
  rw [ConstructFinalPath_of_chain P _ hchain fuel hk]
  rfl

theorem AStarSearchLoop_exhausted (sort : (Nat → Nat → Bool) → List Nat → List Nat)
    (P : RoutePlanner α) (fuel : Nat) (s : State α) (hnil : s.open_list = []) :
    AStarSearchLoop sort P (fuel + 1) s = some (Exit.exhausted, s) := by
  rw [AStarSearchLoop, if_neg (by simp [hnil])]

/-- Total correctness rule for the loop of `AStarSearch`: from a state satisfying a
property `I` that implies `Inv` and is kept by an iteration that does not pop a goal
node, the loop returns for every large enough fuel, in a state described by
`LoopPost`. -/
theorem AStarSearchLoop_total {sort : (Nat → Nat → Bool) → List Nat → List Nat}
    (hs : IsStdSort sort) (P : RoutePlanner α) (hwf : WellFormed P) (I : State α → Prop)
    (hI : ∀ s, I s → Inv P s)
    (hstep : ∀ s c rest, I s → (rest ++ [c]).Perm s.open_list →
      (∀ m ∈ s.open_list, s.g_value c + s.h_value c ≤ s.g_value m + s.h_value m) →
      atGoal P c = false → I (AddNeighbors P { s with open_list := rest } c)) :
    ∀ s, I s → ∃ fuel0, ∀ fuel, fuel0 ≤ fuel →
      ∃ e r, AStarSearchLoop sort P fuel s = some (e, r) ∧ LoopPost P I e r := by
  suffices H : ∀ n m, ∀ s, I s → unvisitedCount P.m_Model s = n → s.open_list.length = m →
      ∃ fuel0, ∀ fuel, fuel0 ≤ fuel →
        ∃ e r, AStarSearchLoop sort P fuel s = some (e, r) ∧ LoopPost P I e r from
    fun s hs => H _ _ s hs rfl rfl
  intro n
  induction n using Nat.strong_induction_on with
  | _ n ihn =>
    intro m
    induction m using Nat.strong_induction_on with
    | _ m ihm =>
      intro s hIs hn hm
      by_cases hnil : s.open_list = []
      · refine ⟨1, fun fuel hfuel => ⟨Exit.exhausted, s, ?_, Or.inl ⟨rfl, hIs, hnil⟩⟩⟩
        obtain ⟨f, rfl⟩ : ∃ f, fuel = f + 1 := ⟨fuel - 1, by omega⟩
        exact AStarSearchLoop_exhausted sort P f s hnil
      · obtain ⟨c, rest, hnn, hperm, hmin⟩ := NextNode_some hs s hnil
        have hinv := hI s hIs
        have hinv2 := Inv_step P hwf s c rest hinv hperm
        have hc_mem : c ∈ s.open_list := hperm.mem_iff.mp (by simp)
        have hc_vis : s.visited c = true := hinv.open_visited c hc_mem
        by_cases hg : atGoal P c = true
        · have hc_vis2 : (AddNeighbors P { s with open_list := rest } c).visited c = true :=
            (AddNeighbors_visited P _ c c).mpr (Or.inl hc_vis)
          obtain ⟨k, hk⟩ := hinv2.chain c hc_vis2
          refine ⟨k + 1, fun fuel hfuel => ⟨Exit.found, _, ?_,
            Or.inr ⟨rfl, s, c, rest, k, hIs, hperm, hg, hk, rfl⟩⟩⟩
          obtain ⟨f, rfl⟩ : ∃ f, fuel = f + 1 := ⟨fuel - 1, by omega⟩
          exact AStarSearchLoop_found sort P f s c rest k hnil hnn hg hk (by omega)
        · have hg2 : atGoal P c = false := by simpa using hg
          have hI2 := hstep s c rest hIs hperm hmin hg2
          have hmono : ∀ v, s.visited v = true →
              (AddNeighbors P { s with open_list := rest } c).visited v = true :=
            fun v hv => (AddNeighbors_visited P _ c v).mpr (Or.inl hv)
          have hrec : ∃ fuel1, ∀ fuel, fuel1 ≤ fuel → ∃ e r,
              AStarSearchLoop sort P fuel (AddNeighbors P { s with open_list := rest } c) =
                some (e, r) ∧ LoopPost P I e r := by
            by_cases hns : FindNeighbors P.m_Model { s with open_list := rest } c = []
            · have hle := unvisitedCount_le P.m_Model s _ hmono
              have hlen : (AddNeighbors P { s with open_list := rest } c).open_list.length < m := by
                rw [AddNeighbors_open_list, hns, List.append_nil, ← hm, ← hperm.length_eq]
                simp
              rcases Nat.lt_or_eq_of_le hle with hlt | heq
              · exact ihn _ (hn ▸ hlt) _ _ hI2 rfl rfl
              · exact ihm _ hlen _ hI2 (heq.trans hn) rfl
            · obtain ⟨x, hx⟩ := List.exists_mem_of_ne_nil _ hns
              have hx2 := (mem_FindNeighbors _ _ _ _).mp hx
              have hxlt : x < P.m_Model.size :=
                hwf.2 c (hinv.visited_lt c hc_vis) x hx2.1
              have hlt := unvisitedCount_lt P.m_Model s _ hmono x hxlt hx2.2
                ((AddNeighbors_visited P _ c x).mpr (Or.inr hx2.1))
              exact ihn _ (hn ▸ hlt) _ _ hI2 rfl rfl
          obtain ⟨fuel1, hfuel1⟩ := hrec
          refine ⟨fuel1 + 1, fun fuel hfuel => ?_⟩
          obtain ⟨f, rfl⟩ : ∃ f, fuel = f + 1 := ⟨fuel - 1, by omega⟩
          rw [AStarSearchLoop_continue sort P f s c rest hnil hnn hg2]
          exact hfuel1 f (by omega)

end LoopRule

section Claims

variable {α : Type} [LinearOrderedCommRing α]

theorem foldl_AddNeighbor_of_not_mem (P : RoutePlanner α) (c : Nat) (ns : List Nat)
    (s : State α) (v : Nat) (hv : v ∉ ns) :
    (ns.foldl (AddNeighbor P c) s).parent v = s.parent v ∧
      (ns.foldl (AddNeighbor P c) s).g_value v = s.g_value v ∧
      (ns.foldl (AddNeighbor P c) s).h_value v = s.h_value v ∧
      (ns.foldl (AddNeighbor P c) s).visited v = s.visited v ∧
      (ns.foldl (AddNeighbor P c) s).open_list.count v = s.open_list.count v := by
  induction ns generalizing s with
  | nil => simp
  | cons n ns ih =>
    rw [List.mem_cons, not_or] at hv
    rw [List.foldl_cons]
    obtain ⟨h1, h2, h3, h4, h5⟩ := ih (AddNeighbor P c s n) hv.2
    rw [h1, h2, h3, h4, h5]
    simp [Function.update_noteq hv.1, List.count_singleton, hv.1]

theorem dist_self_of_mem_FindNeighbors (P : RoutePlanner α) (s : State α) (c : Nat)
    (hself : c ∈ P.m_Model.adj c → s.visited c = false → P.m_Model.distance c c = 0) :
    c ∈ FindNeighbors P.m_Model s c → P.m_Model.distance c c = 0 := by
  intro h
  rw [mem_FindNeighbors] at h
  exact hself h.1 h.2

/-- Claim C3: from every node whose parent chain reaches `start_node` (in `k` steps, with
fuel for `k` iterations), `ConstructFinalPath` returns and sets `distance` to
`MetricScale()` times the sum of `Distance(p[i], p[i+1])` over the consecutive pairs of
the returned path `p`, for a symmetric `Distance`; this is `MetricScale()` times the
sum of the node-to-parent distances along the parent chain from the goal to the
start. -/
theorem C3_ConstructFinalPath_distance (P : RoutePlanner α) (s : State α) (goal k : Nat)
    (hsymm : ∀ a b, P.m_Model.distance a b = P.m_Model.distance b a)
    (hchain : ChainTo P.start_node s.parent goal k) (fuel : Nat) (hfuel : k ≤ fuel) :
    ∃ path r, ConstructFinalPath P fuel s goal = some (path, r) ∧
      r.distance = P.m_Model.MetricScale * pathLength P.m_Model path ∧
      r.distance = P.m_Model.MetricScale * chainDistance P.m_Model s.parent k goal := by
  refine ⟨_, _, ConstructFinalPath_of_chain P s hchain fuel hfuel, ?_, ?_⟩
  · rw [pathLength_reverse_chainNodes P.m_Model hsymm P.start_node s.parent hchain]
    exact mul_comm _ _
  · exact mul_comm _ _

/-- Claim C4: when `start_node` and `end_node` are the same node, `AStarSearch` called
with an empty `open_list` returns through the goal branch with the path made of exactly
that node and `distance` equal to `0`, whatever the adjacency of the node is. -/
theorem C4_same_start_end {sort : (Nat → Nat → Bool) → List Nat → List Nat}
    (hs : IsStdSort sort) (P : RoutePlanner α) (s : State α)
    (hse : P.start_node = P.end_node) (hopen : s.open_list = []) (fuel : Nat)
    (hfuel : 1 ≤ fuel) :
    ∃ r, AStarSearch sort P fuel s = some (Exit.found, r) ∧ r.path = [P.start_node] ∧
      r.distance = 0 := by
  obtain ⟨f, rfl⟩ : ∃ f, fuel = f + 1 := ⟨fuel - 1, by omega⟩
  have hol : (initState P s).open_list = [P.start_node] := by simp [initState, hopen]
  have hne : (initState P s).open_list ≠ [] := by simp [hol]
  obtain ⟨c, rest, hnn, hperm, -⟩ := NextNode_some hs (initState P s) hne
  rw [hol] at hperm
  have hlen := hperm.length_eq
  have hrest : rest = [] := by
    cases rest with
    | nil => rfl
    | cons a l => simp at hlen
  subst hrest
  have hc : c = P.start_node := by
    have := hperm.mem_iff.mp (List.mem_singleton_self c)
    simpa using this
  subst hc
  have hg : atGoal P P.start_node = true := by simp [atGoal, hse]
  refine ⟨foundState P (AddNeighbors P { initState P s with open_list := [] } P.start_node)
    P.start_node 0, ?_, ?_, ?_⟩
  · rw [AStarSearch_eq]
    exact AStarSearchLoop_found sort P f (initState P s) P.start_node [] 0 hne hnn hg
      ChainTo.root (Nat.zero_le _)
  · simp [foundState, chainNodes]
  · simp [foundState, chainDistance]

/-- Claim C5: on a non-empty `open_list`, `NextNode` returns a member `n` of the list
with `g_value n + h_value n ≤ g_value m + h_value m` for every member `m`; afterwards
`open_list` is a rearrangement of the original list with one occurrence of `n` removed,
and nothing else has changed. This holds for any sort that orders by the comparator. -/
theorem C5_NextNode_removes_minimum {sort : (Nat → Nat → Bool) → List Nat → List Nat}
    (hs : IsStdSort sort) (s : State α) (hne : s.open_list ≠ []) :
    ∃ n r, NextNode sort s = some (n, r) ∧ n ∈ s.open_list ∧
      (∀ m ∈ s.open_list, s.g_value n + s.h_value n ≤ s.g_value m + s.h_value m) ∧
      r.open_list.Perm (s.open_list.erase n) ∧ r = { s with open_list := r.open_list } := by
  obtain ⟨n, rest, hnn, hperm, hmin⟩ := NextNode_some hs s hne
  have hmem : n ∈ s.open_list := hperm.mem_iff.mp (by simp)
  refine ⟨n, _, hnn, hmem, hmin, ?_, rfl⟩
  have h1 : (n :: rest).Perm (n :: s.open_list.erase n) :=
    ((List.perm_append_singleton n rest).symm.trans hperm).trans (List.perm_cons_erase hmem)
  exact h1.cons_inv

/-- Claim C6: a neighbour `n` of `current` that is already visited when
`AddNeighbors(current)` is called keeps its `parent`, `g_value` and `h_value` and is not
inserted into `open_list`; and every node that is modified or inserted is a neighbour
of `current` that was not yet visited. -/
theorem C6_AddNeighbors_skips_visited (P : RoutePlanner α) (s : State α) (current : Nat) :
    (∀ n ∈ P.m_Model.adj current, s.visited n = true →
      (AddNeighbors P s current).parent n = s.parent n ∧
      (AddNeighbors P s current).g_value n = s.g_value n ∧
      (AddNeighbors P s current).h_value n = s.h_value n ∧
      (AddNeighbors P s current).open_list.count n = s.open_list.count n) ∧
    (∀ v, ((AddNeighbors P s current).parent v ≠ s.parent v ∨
        (AddNeighbors P s current).g_value v ≠ s.g_value v ∨
        (AddNeighbors P s current).h_value v ≠ s.h_value v ∨
        (AddNeighbors P s current).visited v ≠ s.visited v ∨
        (AddNeighbors P s current).open_list.count v ≠ s.open_list.count v) →
      v ∈ P.m_Model.adj current ∧ s.visited v = false) := by
  constructor
  · intro n _ hv
    have hnot : n ∉ FindNeighbors P.m_Model s current := by
      rw [mem_FindNeighbors]
      simp [hv]
    obtain ⟨h1, h2, h3, -, h5⟩ := foldl_AddNeighbor_of_not_mem P current _ s n hnot
    exact ⟨h1, h2, h3, h5⟩
  · intro v hch
    by_contra hcon
    have hnot : v ∉ FindNeighbors P.m_Model s current := by
      rw [mem_FindNeighbors]
      exact hcon
    obtain ⟨h1, h2, h3, h4, h5⟩ := foldl_AddNeighbor_of_not_mem P current _ s v hnot
    rcases hch with h | h | h | h | h
    · exact h h1
    · exact h h2
    · exact h h3
    · exact h h4
    · exact h h5

/-- Claim C7: for a neighbour `n` of `current` not yet visited, after
`AddNeighbors(current)`: `parent n = current`, `h_value n = CalculateHValue n =
Distance(end_node, n)`, `g_value n = g_value current + Distance(n, current)` (the
`g_value` of `current` being the same before and after the call), `n` is visited and in
`open_list`, and every node of `open_list` before the call is still in it. `Distance`
from a node to itself is `0`; this is used only if `current` is its own unvisited
neighbour. -/
theorem C7_AddNeighbors_sets_fields (P : RoutePlanner α) (s : State α) (current n : Nat)
    (hself : current ∈ P.m_Model.adj current → s.visited current = false →
      P.m_Model.distance current current = 0)
    (hn : n ∈ P.m_Model.adj current) (hv : s.visited n = false) :
    (AddNeighbors P s current).parent n = some current ∧
      (AddNeighbors P s current).h_value n = CalculateHValue P n ∧
      CalculateHValue P n = P.m_Model.distance P.end_node n ∧
      (AddNeighbors P s current).g_value n =
        s.g_value current + P.m_Model.distance n current ∧
      (AddNeighbors P s current).g_value current = s.g_value current ∧
      (AddNeighbors P s current).visited n = true ∧
      n ∈ (AddNeighbors P s current).open_list ∧
      ∀ m ∈ s.open_list, m ∈ (AddNeighbors P s current).open_list := by
  have hmem : n ∈ FindNeighbors P.m_Model s current := (mem_FindNeighbors _ _ _ _).mpr ⟨hn, hv⟩
  have hc := dist_self_of_mem_FindNeighbors P s current hself
  refine ⟨?_, ?_, rfl, ?_, ?_, ?_, ?_, ?_⟩
  · rw [AddNeighbors_parent, if_pos hmem]
  · rw [AddNeighbors_h_value, if_pos hmem]
  · rw [AddNeighbors_g_value P s current n hc, if_pos hmem]
  · rw [AddNeighbors_g_value P s current current hc]
    split
    · rename_i h
      rw [hc h, add_zero]
    · rfl
  · exact (AddNeighbors_visited P s current n).mpr (Or.inr hn)
  · rw [AddNeighbors_open_list]
    exact List.mem_append_right _ hmem
  · intro m hm
    rw [AddNeighbors_open_list]
    exact List.mem_append_left _ hm

end Claims

section ClaimWitnesses

theorem diamondDistance_symm (a b : Nat) : diamondDistance a b = diamondDistance b a := by
  simp [diamondDistance, min_comm, max_comm]

/-- Claim C3 on the diamond graph, from node `3` with the parent chain `3, 1, 0`. -/
theorem C3_ConstructFinalPath_distance_witness :
    ∃ path r, ConstructFinalPath diamondPlanner 2 chainState 3 = some (path, r) ∧
      r.distance = diamondPlanner.m_Model.MetricScale * pathLength diamondPlanner.m_Model path ∧
      r.distance = diamondPlanner.m_Model.MetricScale *
        chainDistance diamondPlanner.m_Model chainState.parent 2 3 :=
  C3_ConstructFinalPath_distance diamondPlanner chainState 3 2 diamondDistance_symm
    (ChainTo.step (by decide) rfl (ChainTo.step (by decide) rfl ChainTo.root)) 2 (le_refl 2)

/-- Claim C4 on the diamond graph with start and end at node `0`. -/
theorem C4_same_start_end_witness :
    ∃ r, AStarSearch insertionSort loopPlanner 1 freshState = some (Exit.found, r) ∧
      r.path = [loopPlanner.start_node] ∧ r.distance = 0 :=
  C4_same_start_end insertionSort_isStdSort loopPlanner freshState rfl rfl 1 (le_refl 1)

/-- Claim C5 on a state whose `open_list` holds nodes `2` and `1`. -/
theorem C5_NextNode_removes_minimum_witness :
    ∃ n r, NextNode insertionSort midState = some (n, r) ∧ n ∈ midState.open_list ∧
      (∀ m ∈ midState.open_list,
        midState.g_value n + midState.h_value n ≤ midState.g_value m + midState.h_value m) ∧
      r.open_list.Perm (midState.open_list.erase n) ∧
      r = { midState with open_list := r.open_list } :=
  C5_NextNode_removes_minimum insertionSort_isStdSort midState (by decide)

/-- Claim C7 on the diamond graph: node `1` is expanded and node `3` is its neighbour not
yet visited. -/
theorem C7_AddNeighbors_sets_fields_witness :
    (AddNeighbors diamondPlanner midState 1).parent 3 = some 1 ∧
      (AddNeighbors diamondPlanner midState 1).h_value 3 = CalculateHValue diamondPlanner 3 ∧
      CalculateHValue diamondPlanner 3 =
        diamondPlanner.m_Model.distance diamondPlanner.end_node 3 ∧
      (AddNeighbors diamondPlanner midState 1).g_value 3 =
        midState.g_value 1 + diamondPlanner.m_Model.distance 3 1 ∧
      (AddNeighbors diamondPlanner midState 1).g_value 1 = midState.g_value 1 ∧
      (AddNeighbors diamondPlanner midState 1).visited 3 = true ∧
      3 ∈ (AddNeighbors diamondPlanner midState 1).open_list ∧
      ∀ m ∈ midState.open_list, m ∈ (AddNeighbors diamondPlanner midState 1).open_list :=
  C7_AddNeighbors_sets_fields diamondPlanner midState 1 3 (fun _ _ => rfl) (by decide) rfl

end ClaimWitnesses

section SearchLemmas

variable {α : Type} [LinearOrderedCommRing α]

theorem atGoal_end_node (P : RoutePlanner α) : atGoal P P.end_node = true := by
  simp [atGoal]

theorem mem_of_perm_append_singleton {rest l : List Nat} {c v : Nat}
    (hperm : (rest ++ [c]).Perm l) (hv : v ∈ l) (hne : v ≠ c) : v ∈ rest := by
  have := hperm.mem_iff.mpr hv
  rcases List.mem_append.mp this with h | h
  · exact h
  · exact absurd (List.mem_singleton.mp h) hne

/-- Every visited node is reachable from `start_node`: kept by `AddNeighbors`. -/
theorem visited_reach_step (P : RoutePlanner α) (s : State α) (c : Nat)
    (hc : s.visited c = true)
    (hr : ∀ v, s.visited v = true → Reach P.m_Model P.start_node v) :
    ∀ v, (AddNeighbors P s c).visited v = true → Reach P.m_Model P.start_node v := by
  intro v hv
  rcases (AddNeighbors_visited P s c v).mp hv with h | h
  · exact hr v h
  · exact Relation.ReflTransGen.tail (hr c hc) h

theorem SearchInv_step (P : RoutePlanner α) (hwf : WellFormed P) (s : State α) (c : Nat)
    (rest : List Nat) (h : SearchInv P s) (hperm : (rest ++ [c]).Perm s.open_list)
    (hg : atGoal P c = false) : SearchInv P (AddNeighbors P { s with open_list := rest } c) := by
  obtain ⟨hinv, hadj, hng⟩ := h
  have hclosed : ∀ v, (AddNeighbors P { s with open_list := rest } c).visited v = true →
      v ∉ (AddNeighbors P { s with open_list := rest } c).open_list → v ≠ c →
      s.visited v = true ∧ v ∉ s.open_list := by
    intro v hv hnot hvc
    rw [AddNeighbors_open_list, List.mem_append, not_or] at hnot
    have hvs : s.visited v = true := by
      rcases (AddNeighbors_visited P _ c v).mp hv with h | h
      · exact h
      · by_contra hcon
        exact hnot.2 ((mem_FindNeighbors _ _ _ _).mpr ⟨h, by simpa using hcon⟩)
    exact ⟨hvs, fun hmem => hnot.1 (mem_of_perm_append_singleton hperm hmem hvc)⟩
  refine ⟨Inv_step P hwf s c rest hinv hperm, ?_, ?_⟩
  · intro v hv hnot m hm
    rw [AddNeighbors_visited]
    by_cases hvc : v = c
    · subst hvc
      exact Or.inr hm
    · obtain ⟨h1, h2⟩ := hclosed v hv hnot hvc
      exact Or.inl (hadj v h1 h2 m hm)
  · intro v hv hnot
    by_cases hvc : v = c
    · subst hvc
      exact hg
    · obtain ⟨h1, h2⟩ := hclosed v hv hnot hvc
      exact hng v h1 h2

theorem SearchInv_initState (P : RoutePlanner α) (hwf : WellFormed P) (s : State α)
    (hf : Fresh s) : SearchInv P (initState P s) := by
  have hvis : ∀ v, (initState P s).visited v = true → v ∈ (initState P s).open_list := by
    intro v hv
    by_cases hvs : v = P.start_node
    · simp [initState, hvs]
    · simp [initState, Function.update_noteq hvs, hf.1 v] at hv
  exact ⟨Inv_initState_of_fresh P hwf s hf, fun v hv hnot => absurd (hvis v hv) hnot,
    fun v hv hnot => absurd (hvis v hv) hnot⟩

/-- With an empty `open_list`, the search invariant makes every node reachable from
`start_node` a visited node that is not at the goal. -/
theorem SearchInv_exhausted (P : RoutePlanner α) (s : State α) (h : SearchInv P s)
    (hnil : s.open_list = []) (v : Nat) (hr : Reach P.m_Model P.start_node v) :
    s.visited v = true ∧ atGoal P v = false := by
  have hvis : s.visited v = true := by
    induction hr with
    | refl => exact h.1.start_visited
    | tail _ hbc ih => exact h.2.1 _ ih (by simp [hnil]) _ hbc
  exact ⟨hvis, h.2.2 v hvis (by simp [hnil])⟩

theorem foundState_path_ends (P : RoutePlanner α) (u : State α) (c k : Nat)
    (hchain : ChainTo P.start_node u.parent c k) :
    (foundState P u c k).path.head? = some P.start_node ∧
      (foundState P u c k).path.getLast? = some c := by
  constructor
  · simp only [foundState, List.head?_reverse]
    exact chainNodes_getLast P.start_node u.parent hchain
  · simp only [foundState, List.getLast?_reverse]
    exact chainNodes_head u.parent k c

end SearchLemmas

section SearchClaims

variable {α : Type} [LinearOrderedCommRing α]

/-- Claim C1, amended: on a finite graph in which `end_node` is reachable from
`start_node` (in particular on every connected graph), `AStarSearch` started from a
fresh state returns, for every large enough fuel, through the goal branch; the stored
path has `start_node` as its first element, and its last element is a node with the
coordinates of `end_node`, which is `end_node` itself when no other node of the model
has these coordinates. -/
theorem C1_found_on_connected {sort : (Nat → Nat → Bool) → List Nat → List Nat}
    (hs : IsStdSort sort) (P : RoutePlanner α) (hwf : WellFormed P) (s : State α)
    (hfresh : Fresh s) (hreach : Reach P.m_Model P.start_node P.end_node) :
    ∃ fuel0, ∀ fuel, fuel0 ≤ fuel → ∃ r last,
      AStarSearch sort P fuel s = some (Exit.found, r) ∧
      r.path.head? = some P.start_node ∧ r.path.getLast? = some last ∧
      atGoal P last = true ∧
      ((∀ v, v < P.m_Model.size → atGoal P v = true → v = P.end_node) →
        last = P.end_node) := by
  obtain ⟨fuel0, h0⟩ := AStarSearchLoop_total hs P hwf (SearchInv P) (fun s h => h.1)
    (fun s c rest h hperm _ hg => SearchInv_step P hwf s c rest h hperm hg)
    (initState P s) (SearchInv_initState P hwf s hfresh)
  refine ⟨fuel0, fun fuel hfuel => ?_⟩
  obtain ⟨e, r, hrun, hpost⟩ := h0 fuel hfuel
  rcases hpost with ⟨-, hI, hnil⟩ | ⟨he, t, c, rest, k, hI, hperm, hg, hchain, hr⟩
  · have := (SearchInv_exhausted P r hI hnil P.end_node hreach).2
    rw [atGoal_end_node] at this
    exact absurd this (by simp)
  · subst he hr
    have hends := foundState_path_ends P _ c k hchain
    refine ⟨_, c, hrun, hends.1, hends.2, hg, fun huniq => ?_⟩
    have hc_mem : c ∈ t.open_list := hperm.mem_iff.mp (by simp)
    exact huniq c (hI.1.visited_lt c (hI.1.open_visited c hc_mem)) hg

/-- Claim C2, amended: on a finite graph in which no node with the coordinates of
`end_node` is reachable from `start_node`, `AStarSearch` started from a fresh state
returns, for every large enough fuel, with `open_list` exhausted; it gives no signal:
`path` and `distance` are left exactly as they were before the call. -/
theorem C2_exhausted_leaves_path {sort : (Nat → Nat → Bool) → List Nat → List Nat}
    (hs : IsStdSort sort) (P : RoutePlanner α) (hwf : WellFormed P) (s : State α)
    (hfresh : Fresh s)
    (hun : ∀ v, Reach P.m_Model P.start_node v → atGoal P v = false) :
    ∃ fuel0, ∀ fuel, fuel0 ≤ fuel → ∃ r,
      AStarSearch sort P fuel s = some (Exit.exhausted, r) ∧ r.open_list = [] ∧
      r.path = s.path ∧ r.distance = s.distance := by
  obtain ⟨fuel0, h0⟩ := AStarSearchLoop_total hs P hwf
    (fun t => Inv P t ∧ (∀ v, t.visited v = true → Reach P.m_Model P.start_node v) ∧
      t.path = s.path ∧ t.distance = s.distance)
    (fun s h => h.1)
    (fun t c rest h hperm _ _ => by
      have hc_mem : c ∈ t.open_list := hperm.mem_iff.mp (by simp)
      refine ⟨Inv_step P hwf t c rest h.1 hperm, ?_, ?_, ?_⟩
      · exact visited_reach_step P { t with open_list := rest } c
          (h.1.open_visited c hc_mem) h.2.1
      · rw [AddNeighbors_path]
        exact h.2.2.1
      · rw [AddNeighbors_distance]
        exact h.2.2.2)
    (initState P s)
    ⟨Inv_initState_of_fresh P hwf s hfresh, by
      intro v hv
      by_cases hvs : v = P.start_node
      · rw [hvs]
        exact Relation.ReflTransGen.refl
      · simp [initState, Function.update_noteq hvs, hfresh.1 v] at hv, rfl, rfl⟩
  refine ⟨fuel0, fun fuel hfuel => ?_⟩
  obtain ⟨e, r, hrun, hpost⟩ := h0 fuel hfuel
  rcases hpost with ⟨he, hI, hnil⟩ | ⟨-, t, c, rest, k, hI, hperm, hg, -, -⟩
  · subst he
    exact ⟨r, hrun, hnil, hI.2.2.1, hI.2.2.2⟩
  · have hc_mem : c ∈ t.open_list := hperm.mem_iff.mp (by simp)
    have := hun c (hI.2.1 c (hI.1.open_visited c hc_mem))
    rw [hg] at this
    exact absurd this (by simp)

end SearchClaims

section SearchWitnesses

theorem wellFormed_diamondPlanner : WellFormed diamondPlanner := by
  unfold WellFormed
  decide

theorem fresh_freshState : Fresh freshState := ⟨fun _ => rfl, rfl⟩

theorem reach_diamond : Reach diamondModel 0 3 :=
  Relation.ReflTransGen.tail (Relation.ReflTransGen.single (by decide : 1 ∈ diamondAdj 0))
    (by decide : 3 ∈ diamondAdj 1)

/-- Claim C1, amended, on the diamond graph from node `0` to node `3`. -/
theorem C1_found_on_connected_witness :
    ∃ fuel0, ∀ fuel, fuel0 ≤ fuel → ∃ r last,
      AStarSearch insertionSort diamondPlanner fuel freshState = some (Exit.found, r) ∧
      r.path.head? = some diamondPlanner.start_node ∧ r.path.getLast? = some last ∧
      atGoal diamondPlanner last = true ∧
      ((∀ v, v < diamondPlanner.m_Model.size → atGoal diamondPlanner v = true →
          v = diamondPlanner.end_node) →
        last = diamondPlanner.end_node) :=
  C1_found_on_connected insertionSort_isStdSort diamondPlanner wellFormed_diamondPlanner
    freshState fresh_freshState reach_diamond

theorem reach_coModel (a b : Nat) (ha : a < 3) (hb : b < 3) : Reach coModel a b := by
  have e01 : Reach coModel 0 1 := Relation.ReflTransGen.single (by decide : 1 ∈ coAdj 0)
  have e12 : Reach coModel 1 2 := Relation.ReflTransGen.single (by decide : 2 ∈ coAdj 1)
  have e10 : Reach coModel 1 0 := Relation.ReflTransGen.single (by decide : 0 ∈ coAdj 1)
  have e21 : Reach coModel 2 1 := Relation.ReflTransGen.single (by decide : 1 ∈ coAdj 2)
  have from0 : ∀ v, v < 3 → Reach coModel 0 v := by
    intro v hv
    interval_cases v
    · exact Relation.ReflTransGen.refl
    · exact e01
    · exact e01.trans e12
  have to0 : ∀ v, v < 3 → Reach coModel v 0 := by
    intro v hv
    interval_cases v
    · exact Relation.ReflTransGen.refl
    · exact e10
    · exact e21.trans e10
  exact (to0 a ha).trans (from0 b hb)

/-- Claim C1 fails as stated: `coModel` is a connected graph, the state is fresh, and the
search from node `0` to node `2` returns the path `0, 1`, whose last element is not
`end_node`: node `1` has the coordinates of node `2` and passes the test of line 103.
`open_list` never holds more than one node, so the order of the sort plays no part. -/
theorem C1_counterexample :
    WellFormed coPlanner ∧ Fresh freshState ∧
      (∀ a b, a < 3 → b < 3 → Reach coModel a b) ∧
      (AStarSearch insertionSort coPlanner 3 freshState).isSome = true ∧
      (∀ fuel r, AStarSearch insertionSort coPlanner fuel freshState = some r →
        r.1 = Exit.found ∧ r.2.path = [0, 1] ∧
          r.2.path.getLast? ≠ some coPlanner.end_node) := by
  have hrun : (AStarSearch insertionSort coPlanner 3 freshState).map
      (fun r => (r.1, r.2.path)) = some (Exit.found, [0, 1]) := by decide
  refine ⟨by unfold WellFormed; decide, fresh_freshState, reach_coModel, ?_, ?_⟩
  · cases h : AStarSearch insertionSort coPlanner 3 freshState with
    | none => simp [h] at hrun
    | some r2 => rfl
  · intro fuel r h
    cases h2 : AStarSearch insertionSort coPlanner 3 freshState with
    | none => simp [h2] at hrun
    | some r2 =>
      have := AStarSearch_fuel_unique insertionSort coPlanner fuel 3 freshState r r2 h h2
      subst this
      simp only [h2, Option.map_some', Option.some.injEq, Prod.mk.injEq] at hrun
      refine ⟨hrun.1, hrun.2, ?_⟩
      rw [hrun.2]
      decide

theorem wellFormed_isoPlanner : WellFormed isoPlanner := by
  unfold WellFormed
  decide

theorem reach_isoModel (v : Nat) (h : Reach isoModel 0 v) : v = 0 := by
  induction h with
  | refl => rfl
  | tail _ hbc _ => simp [isoModel] at hbc

/-- Claim C2, amended, on two nodes without an edge, from a state that holds an earlier
path. -/
theorem C2_exhausted_leaves_path_witness :
    ∃ fuel0, ∀ fuel, fuel0 ≤ fuel → ∃ r,
      AStarSearch insertionSort isoPlanner fuel staleState = some (Exit.exhausted, r) ∧
      r.open_list = [] ∧ r.path = staleState.path ∧ r.distance = staleState.distance :=
  C2_exhausted_leaves_path insertionSort_isStdSort isoPlanner wellFormed_isoPlanner
    staleState ⟨fun _ => rfl, rfl⟩ (fun v hv => by rw [reach_isoModel v hv]; decide)

theorem reach_splitModel (v : Nat) (h : Reach splitModel 0 v) : v = 0 ∨ v = 1 := by
  induction h with
  | refl => exact Or.inl rfl
  | @tail b c _ hbc ih =>
    rcases ih with rfl | rfl
    · right
      simpa [splitModel] using hbc
    · left
      simpa [splitModel] using hbc

/-- Claim C2 fails as stated: in `isoModel` node `1` is not reachable from node `0`; the
search from a fresh state returns with `open_list` exhausted and reports nothing: the
path is still the empty path and `distance` the value it had before the call, and
from a state that holds the path of an earlier search the caller gets that path back.
Moreover `open_list` need not be exhausted: in `splitModel` the end node `2` is not
reachable from node `0`, but node `1` has its coordinates and the search leaves through
the goal branch with the path `0, 1`. -/
theorem C2_counterexample :
    ¬ Reach isoModel isoPlanner.start_node isoPlanner.end_node ∧ Fresh freshState ∧
      Fresh staleState ∧
      ¬ Reach splitModel splitPlanner.start_node splitPlanner.end_node ∧
      (AStarSearch insertionSort splitPlanner 3 freshState).map (fun r => (r.1, r.2.path)) =
        some (Exit.found, [0, 1]) ∧
      (AStarSearch insertionSort isoPlanner 2 freshState).isSome = true ∧
      (∀ fuel r, AStarSearch insertionSort isoPlanner fuel freshState = some r →
        r.1 = Exit.exhausted ∧ r.2.path = [] ∧ r.2.distance = freshState.distance) ∧
      (∀ fuel r, AStarSearch insertionSort isoPlanner fuel staleState = some r →
        r.1 = Exit.exhausted ∧ r.2.path = [0, 1] ∧ r.2.distance = 1) := by
  have hrun : (AStarSearch insertionSort isoPlanner 2 freshState).map
      (fun r => (r.1, r.2.path, r.2.distance)) = some (Exit.exhausted, [], 0) := by decide
  have hrun2 : (AStarSearch insertionSort isoPlanner 2 staleState).map
      (fun r => (r.1, r.2.path, r.2.distance)) = some (Exit.exhausted, [0, 1], 1) := by decide
  refine ⟨fun h => absurd (reach_isoModel _ h) (by decide), fresh_freshState,
    ⟨fun _ => rfl, rfl⟩, fun h => (reach_splitModel _ h).elim (by decide) (by decide),
    by decide, ?_, ?_, ?_⟩
  · cases h : AStarSearch insertionSort isoPlanner 2 freshState with
    | none => simp [h] at hrun
    | some r2 => rfl
  · intro fuel r h
    cases h2 : AStarSearch insertionSort isoPlanner 2 freshState with
    | none => simp [h2] at hrun
    | some r2 =>
      have := AStarSearch_fuel_unique insertionSort isoPlanner fuel 2 freshState r r2 h h2
      subst this
      simp only [h2, Option.map_some', Option.some.injEq, Prod.mk.injEq] at hrun
      exact ⟨hrun.1, hrun.2.1, hrun.2.2⟩
  · intro fuel r h
    cases h2 : AStarSearch insertionSort isoPlanner 2 staleState with
    | none => simp [h2] at hrun2
    | some r2 =>
      have := AStarSearch_fuel_unique insertionSort isoPlanner fuel 2 staleState r r2 h h2
      subst this
      simp only [h2, Option.map_some', Option.some.injEq, Prod.mk.injEq] at hrun2
      exact ⟨hrun2.1, hrun2.2.1, hrun2.2.2⟩

end SearchWitnesses

section SecondRun

variable {α : Type} [LinearOrderedCommRing α]

theorem initState_visited (P : RoutePlanner α) (s : State α)
    (h : s.visited P.start_node = true) : (initState P s).visited = s.visited := by
  funext v
  by_cases hv : v = P.start_node
  · simp [initState, hv, h]
  · simp [initState, Function.update_noteq hv]

theorem Inv_foundState (P : RoutePlanner α) (u : State α) (c k : Nat) (h : Inv P u) :
    Inv P (foundState P u c k) :=
  ⟨h.open_visited, h.visited_lt, h.start_visited, h.parent_visited, h.chain⟩

/-- A search started in a state in which every visited node has all its neighbours
visited and is not at the goal changes neither `path` nor `distance`. -/
theorem AStarSearch_closed {sort : (Nat → Nat → Bool) → List Nat → List Nat}
    (hs : IsStdSort sort) (P : RoutePlanner α) (hwf : WellFormed P) (r1 : State α)
    (hinv : Inv P r1)
    (hclosed : ∀ v, r1.visited v = true →
      (∀ m ∈ P.m_Model.adj v, r1.visited m = true) ∧ atGoal P v = false) :
    ∃ f2, ∀ fuel, f2 ≤ fuel → ∃ e2 r2, AStarSearch sort P fuel r1 = some (e2, r2) ∧
      r2.path = r1.path ∧ r2.distance = r1.distance := by
  obtain ⟨f2, h2⟩ := AStarSearchLoop_total hs P hwf
    (fun t => Inv P t ∧
      (∀ v, t.visited v = true →
        (∀ m ∈ P.m_Model.adj v, t.visited m = true) ∧ atGoal P v = false) ∧
      t.path = r1.path ∧ t.distance = r1.distance)
    (fun s h => h.1)
    (fun t c rest h hperm _ _ => by
      have hc_mem : c ∈ t.open_list := hperm.mem_iff.mp (by simp)
      have hc_vis : t.visited c = true := h.1.open_visited c hc_mem
      have hsame : ∀ v, (AddNeighbors P { t with open_list := rest } c).visited v = true ↔
          t.visited v = true := by
        intro v
        rw [AddNeighbors_visited]
        exact ⟨fun hv => hv.elim id (fun hm => (h.2.1 c hc_vis).1 v hm), Or.inl⟩
      refine ⟨Inv_step P hwf t c rest h.1 hperm, ?_, ?_, ?_⟩
      · intro v hv
        have hv2 := (hsame v).mp hv
        exact ⟨fun m hm => (hsame m).mpr ((h.2.1 v hv2).1 m hm), (h.2.1 v hv2).2⟩
      · rw [AddNeighbors_path]
        exact h.2.2.1
      · rw [AddNeighbors_distance]
        exact h.2.2.2)
    (initState P r1)
    ⟨Inv_initState P r1 hinv, by
      rw [initState_visited P r1 hinv.start_visited]
      exact hclosed, rfl, rfl⟩
  refine ⟨f2, fun fuel hfuel => ?_⟩
  obtain ⟨e, r, hrun, hpost⟩ := h2 fuel hfuel
  rcases hpost with ⟨-, hI, -⟩ | ⟨-, t, c, rest, k, hI, hperm, hg, -, -⟩
  · exact ⟨e, r, hrun, hI.2.2.1, hI.2.2.2⟩
  · have hc_mem : c ∈ t.open_list := hperm.mem_iff.mp (by simp)
    have := (hI.2.1 c (hI.1.open_visited c hc_mem)).2
    rw [hg] at this
    exact absurd this (by simp)

/-- A search started in a state whose `path` and `distance` are those of the parent chain
of `end_node`, when `end_node` is the only node at its coordinates, changes neither
`path` nor `distance`. -/
theorem AStarSearch_stable {sort : (Nat → Nat → Bool) → List Nat → List Nat}
    (hs : IsStdSort sort) (P : RoutePlanner α) (hwf : WellFormed P)
    (huniq : ∀ v, v < P.m_Model.size → atGoal P v = true → v = P.end_node)
    (r1 : State α) (hinv : Inv P r1) (k : Nat) (hend : r1.visited P.end_node = true)
    (hchain : ChainTo P.start_node r1.parent P.end_node k)
    (hpath : r1.path = (chainNodes r1.parent k P.end_node).reverse)
    (hdist : r1.distance =
      chainDistance P.m_Model r1.parent k P.end_node * P.m_Model.MetricScale) :
    ∃ f2, ∀ fuel, f2 ≤ fuel → ∃ e2 r2, AStarSearch sort P fuel r1 = some (e2, r2) ∧
      r2.path = r1.path ∧ r2.distance = r1.distance := by
  obtain ⟨f2, h2⟩ := AStarSearchLoop_total hs P hwf
    (fun t => Inv P t ∧ t.visited P.end_node = true ∧
      ChainTo P.start_node t.parent P.end_node k ∧
      chainNodes t.parent k P.end_node = chainNodes r1.parent k P.end_node ∧
      chainDistance P.m_Model t.parent k P.end_node =
        chainDistance P.m_Model r1.parent k P.end_node ∧
      t.path = r1.path ∧ t.distance = r1.distance)
    (fun s h => h.1)
    (fun t c rest h hperm _ _ => by
      obtain ⟨h1, h2, h3, h4, h5, h6, h7⟩ := h
      obtain ⟨g1, g2, g3⟩ := ChainTo_AddNeighbors P { t with open_list := rest } c
        h1.parent_visited h3 h2
      refine ⟨Inv_step P hwf t c rest h1 hperm, ?_, g1, g2.trans h4, g3.trans h5, ?_, ?_⟩
      · exact (AddNeighbors_visited P _ c _).mpr (Or.inl h2)
      · rw [AddNeighbors_path]
        exact h6
      · rw [AddNeighbors_distance]
        exact h7)
    (initState P r1)
    ⟨Inv_initState P r1 hinv, by
      rw [initState_visited P r1 hinv.start_visited]
      exact hend, hchain, rfl, rfl, rfl, rfl⟩
  refine ⟨f2, fun fuel hfuel => ?_⟩
  obtain ⟨e, r, hrun, hpost⟩ := h2 fuel hfuel
  rcases hpost with ⟨-, hI, -⟩ | ⟨-, t, c, rest, k2, hI, hperm, hg, hchain2, hr⟩
  · exact ⟨e, r, hrun, hI.2.2.2.2.2.1, hI.2.2.2.2.2.2⟩
  · obtain ⟨h1, h2, h3, h4, h5, -, -⟩ := hI
    have hc_mem : c ∈ t.open_list := hperm.mem_iff.mp (by simp)
    have hc : c = P.end_node := huniq c (h1.visited_lt c (h1.open_visited c hc_mem)) hg
    subst hc
    obtain ⟨g1, g2, g3⟩ := ChainTo_AddNeighbors P { t with open_list := rest } P.end_node
      h1.parent_visited h3 h2
    have hk : k2 = k := ChainTo_unique P.start_node _ hchain2 k g1
    subst hk hr
    refine ⟨e, _, hrun, ?_, ?_⟩
    · simp only [foundState]
      rw [g2, h4, hpath]
    · simp only [foundState]
      rw [g3, h5, hdist]

end SecondRun

section SecondRunClaims

variable {α : Type} [LinearOrderedCommRing α]

/-- Claim C8, amended: on a finite graph in which `end_node` is the only node at its
coordinates, after a first `AStarSearch` from a fresh state a second `AStarSearch` on the
state left by the first returns (for every large enough fuel) with `path` and
`distance`, hence the number of nodes of the path, exactly as the first run left
them. -/
theorem C8_second_run_same_path {sort : (Nat → Nat → Bool) → List Nat → List Nat}
    (hs : IsStdSort sort) (P : RoutePlanner α) (hwf : WellFormed P) (s : State α)
    (hfresh : Fresh s)
    (huniq : ∀ v, v < P.m_Model.size → atGoal P v = true → v = P.end_node) :
    ∃ fuel0, ∀ fuel, fuel0 ≤ fuel → ∃ e1 r1 e2 r2,
      AStarSearch sort P fuel s = some (e1, r1) ∧
      AStarSearch sort P fuel r1 = some (e2, r2) ∧
      r2.path = r1.path ∧ r2.distance = r1.distance ∧ r2.path.length = r1.path.length := by
  obtain ⟨f1, h1⟩ := AStarSearchLoop_total hs P hwf (SearchInv P) (fun s h => h.1)
    (fun s c rest h hperm _ hg => SearchInv_step P hwf s c rest h hperm hg)
    (initState P s) (SearchInv_initState P hwf s hfresh)
  obtain ⟨e1, r1, hrun1, hpost⟩ := h1 f1 (le_refl _)
  have hsecond : ∃ f2, ∀ fuel, f2 ≤ fuel → ∃ e2 r2,
      AStarSearch sort P fuel r1 = some (e2, r2) ∧
      r2.path = r1.path ∧ r2.distance = r1.distance := by
    rcases hpost with ⟨-, hI, hnil⟩ | ⟨-, t, c, rest, k, hI, hperm, hg, hchain, hr⟩
    · refine AStarSearch_closed hs P hwf r1 hI.1 (fun v hv => ⟨?_, ?_⟩)
      · exact hI.2.1 v hv (by simp [hnil])
      · exact hI.2.2 v hv (by simp [hnil])
    · have hc_mem : c ∈ t.open_list := hperm.mem_iff.mp (by simp)
      have hc_vis : t.visited c = true := hI.1.open_visited c hc_mem
      have hc : c = P.end_node := huniq c (hI.1.visited_lt c hc_vis) hg
      subst hc hr
      exact AStarSearch_stable hs P hwf huniq _
        (Inv_foundState P _ _ k (Inv_step P hwf t P.end_node rest hI.1 hperm)) k
        ((AddNeighbors_visited P _ _ _).mpr (Or.inl hc_vis)) hchain rfl rfl
  obtain ⟨f2, h2⟩ := hsecond
  refine ⟨max f1 f2, fun fuel hfuel => ?_⟩
  obtain ⟨e2, r2, hrun2, hp, hd⟩ := h2 fuel (le_trans (le_max_right _ _) hfuel)
  refine ⟨e1, r1, e2, r2, ?_, hrun2, hp, hd, by rw [hp]⟩
  exact AStarSearchLoop_mono_le sort P f1 fuel (le_trans (le_max_left _ _) hfuel) _ _ hrun1

end SecondRunClaims

section Simulation

variable {α : Type} [LinearOrderedCommRing α]

theorem ConstructFinalPath_mono_le (P : RoutePlanner α) (fuel fuel2 : Nat) (hle : fuel ≤ fuel2)
    (s : State α) (v : Nat) (r : List Nat × State α)
    (h : ConstructFinalPath P fuel s v = some r) : ConstructFinalPath P fuel2 s v = some r := by
  induction hle with
  | refl => exact h
  | step _ ih => exact ConstructFinalPath_mono P _ s v r ih

/-- Whenever `ConstructFinalPath` returns from a node with a parent chain of `k` steps,
it returns the chain. -/
theorem ConstructFinalPath_eq_of_chain (P : RoutePlanner α) (s : State α) {v k : Nat}
    (hchain : ChainTo P.start_node s.parent v k) (fuel : Nat) (r : List Nat × State α)
    (h : ConstructFinalPath P fuel s v = some r) :
    r = ((chainNodes s.parent k v).reverse,
      { s with distance := chainDistance P.m_Model s.parent k v * P.m_Model.MetricScale }) := by
  have h1 := ConstructFinalPath_mono_le P fuel (fuel + k) (Nat.le_add_right _ _) s v r h
  rw [ConstructFinalPath_of_chain P s hchain (fuel + k) (Nat.le_add_left _ _)] at h1
  exact (Option.some.inj h1).symm

theorem SameSearch_scoreGreater (P : RoutePlanner α) (δ : α) (s t : State α)
    (hinv : Inv P s) (h : SameSearch P δ s t) :
    ∀ a ∈ s.open_list, ∀ b ∈ s.open_list, scoreGreater s a b = scoreGreater t a b := by
  obtain ⟨-, -, -, -, -, hh, hg, hst⟩ := h
  intro a ha b hb
  by_cases hmem : P.start_node ∈ s.open_list
  · rw [hst hmem] at ha hb
    rw [List.mem_singleton.mp ha, List.mem_singleton.mp hb]
    simp [scoreGreater]
  · have hane : a ≠ P.start_node := fun h => hmem (h ▸ ha)
    have hbne : b ≠ P.start_node := fun h => hmem (h ▸ hb)
    simp only [scoreGreater, hh a ha hane, hh b hb hbne, hg a (hinv.open_visited a ha),
      hg b (hinv.open_visited b hb), ← add_assoc, gt_iff_lt, add_lt_add_iff_right]

theorem NextNode_of_sorted_eq (sort : (Nat → Nat → Bool) → List Nat → List Nat)
    (s t : State α)
    (h : sort (scoreGreater s) s.open_list = sort (scoreGreater t) t.open_list)
    (c : Nat) (rest : List Nat)
    (hnn : NextNode sort s = some (c, { s with open_list := rest })) :
    NextNode sort t = some (c, { t with open_list := rest }) := by
  unfold NextNode at hnn ⊢
  rw [← h]
  cases hgl : (sort (scoreGreater s) s.open_list).getLast? with
  | none => simp [hgl] at hnn
  | some x =>
    simp only [hgl, Option.some.injEq, Prod.mk.injEq, State.mk.injEq, true_and] at hnn ⊢
    exact ⟨hnn.1, by simpa using hnn.2⟩

theorem SameSearch_step (P : RoutePlanner α) (δ : α) (s t : State α) (c : Nat)
    (rest : List Nat) (hinv : Inv P s) (h : SameSearch P δ s t)
    (hperm : (rest ++ [c]).Perm s.open_list) :
    SameSearch P δ (AddNeighbors P { s with open_list := rest } c)
      (AddNeighbors P { t with open_list := rest } c) := by
  obtain ⟨hv, ho, hp, hd, hpar, hh, hg, hst⟩ := h
  have hc_mem : c ∈ s.open_list := hperm.mem_iff.mp (by simp)
  have hc_vis : s.visited c = true := hinv.open_visited c hc_mem
  have hfn : FindNeighbors P.m_Model { t with open_list := rest } c =
      FindNeighbors P.m_Model { s with open_list := rest } c := by
    simp only [FindNeighbors, hv]
  have hc_not : c ∉ FindNeighbors P.m_Model { s with open_list := rest } c := by
    rw [mem_FindNeighbors]
    simp [hc_vis]
  have hvis_of : ∀ v, (AddNeighbors P { s with open_list := rest } c).visited v = true →
      v ∉ FindNeighbors P.m_Model { s with open_list := rest } c → s.visited v = true := by
    intro v hvv hnot
    rcases (AddNeighbors_visited P _ c v).mp hvv with h1 | h1
    · exact h1
    · by_contra hcon
      exact hnot ((mem_FindNeighbors _ _ _ _).mpr ⟨h1, by simpa using hcon⟩)
  refine ⟨?_, ?_, ?_, ?_, ?_, ?_, ?_, ?_⟩
  · funext v
    rw [Bool.eq_iff_iff, AddNeighbors_visited, AddNeighbors_visited]
    show s.visited v = true ∨ _ ↔ t.visited v = true ∨ _
    rw [hv]
  · rw [AddNeighbors_open_list, AddNeighbors_open_list, hfn]
  · rw [AddNeighbors_path, AddNeighbors_path]
    exact hp
  · rw [AddNeighbors_distance, AddNeighbors_distance]
    exact hd
  · intro v hvv hne
    rw [AddNeighbors_parent, AddNeighbors_parent, hfn]
    split
    · rfl
    · rename_i hnot
      exact hpar v (hvis_of v hvv hnot) hne
  · intro v hvo hne
    rw [AddNeighbors_h_value, AddNeighbors_h_value, hfn]
    split
    · rfl
    · rename_i hnot
      rw [AddNeighbors_open_list] at hvo
      rcases List.mem_append.mp hvo with h1 | h1
      · exact hh v (hperm.mem_iff.mp (List.mem_append_left _ h1)) hne
      · exact absurd h1 hnot
  · intro v hvv
    rw [AddNeighbors_g_value P _ c v (fun h => absurd h hc_not),
      AddNeighbors_g_value P _ c v (fun h => absurd (hfn ▸ h) hc_not), hfn]
    split
    · show s.g_value c + _ = t.g_value c + _ + δ
      rw [hg c hc_vis]
      abel
    · rename_i hnot
      exact hg v (hvis_of v hvv hnot)
  · intro hmem
    exfalso
    rw [AddNeighbors_open_list] at hmem
    rcases List.mem_append.mp hmem with h1 | h1
    · have h2 := hst (hperm.mem_iff.mp (List.mem_append_left _ h1))
      rw [h2] at hperm
      have := hperm.length_eq
      cases rest with
      | nil => simp at h1
      | cons x l => simp at this
    · have := ((mem_FindNeighbors _ _ _ _).mp h1).2
      rw [show ({ s with open_list := rest } : State α).visited = s.visited from rfl,
        hinv.start_visited] at this
      exact absurd this (by simp)

theorem ChainTo_congr (P : RoutePlanner α) (s t : State α)
    (hpv : ∀ v, s.visited v = true → v ≠ P.start_node →
      ∃ p, s.parent v = some p ∧ s.visited p = true)
    (hpar : ∀ v, s.visited v = true → v ≠ P.start_node → s.parent v = t.parent v)
    {v k : Nat} (h : ChainTo P.start_node s.parent v k) (hv : s.visited v = true) :
    ChainTo P.start_node t.parent v k ∧ chainNodes t.parent k v = chainNodes s.parent k v ∧
      chainDistance P.m_Model t.parent k v = chainDistance P.m_Model s.parent k v := by
  induction h with
  | root => exact ⟨ChainTo.root, by simp [chainNodes, chainDistance]⟩
  | @step v p k hne hp _ ih =>
    obtain ⟨p2, hp2, hp2v⟩ := hpv v hv hne
    rw [hp] at hp2
    cases hp2
    have hp3 : t.parent v = some p := by rw [← hpar v hv hne, hp]
    obtain ⟨ih1, ih2, ih3⟩ := ih hp2v
    refine ⟨ChainTo.step hne hp3 ih1, ?_, ?_⟩
    · simp only [chainNodes, hp, hp3, ih2]
    · simp only [chainDistance, hp, hp3, ih3]

/-- Two runs of the loop from states related by `SameSearch` that both return take the
same exit and leave the same `path`, `distance` and `visited`, and on every visited node
a `g_value` that differs by `δ`. -/
theorem AStarSearchLoop_sameSearch {sort : (Nat → Nat → Bool) → List Nat → List Nat}
    (hs : IsStdSort sort) (P : RoutePlanner α) (hwf : WellFormed P) (δ : α) :
    ∀ (fuel : Nat) (s t : State α) (e1 e2 : Exit) (r1 r2 : State α), Inv P s →
      SameSearch P δ s t →
      AStarSearchLoop sort P fuel s = some (e1, r1) →
      AStarSearchLoop sort P fuel t = some (e2, r2) →
      e1 = e2 ∧ r1.path = r2.path ∧ r1.distance = r2.distance ∧
        r1.visited = r2.visited ∧
        ∀ v, r1.visited v = true → r1.g_value v = r2.g_value v + δ := by
  intro fuel
  induction fuel with
  | zero =>
    intro s t e1 e2 r1 r2 _ _ h1 _
    simp [AStarSearchLoop] at h1
  | succ fuel ih =>
    intro s t e1 e2 r1 r2 hinv hrel h1 h2
    by_cases hnil : s.open_list = []
    · have hnil2 : t.open_list = [] := by rw [← hrel.2.1, hnil]
      rw [AStarSearchLoop_exhausted sort P fuel s hnil] at h1
      rw [AStarSearchLoop_exhausted sort P fuel t hnil2] at h2
      cases h1
      cases h2
      exact ⟨rfl, hrel.2.2.1, hrel.2.2.2.1, hrel.1, hrel.2.2.2.2.2.2.1⟩
    · have hnil2 : t.open_list ≠ [] := by rw [← hrel.2.1]; exact hnil
      obtain ⟨c, rest, hnn, hperm, -⟩ := NextNode_some hs s hnil
      have hsorted : sort (scoreGreater s) s.open_list = sort (scoreGreater t) t.open_list := by
        rw [← hrel.2.1]
        exact hs.2.2 _ _ _ (SameSearch_scoreGreater P δ s t hinv hrel)
      have hnn2 := NextNode_of_sorted_eq sort s t hsorted c rest hnn
      have hrel2 := SameSearch_step P δ s t c rest hinv hrel hperm
      have hinv2 := Inv_step P hwf s c rest hinv hperm
      by_cases hg : atGoal P c = true
      · have hc_vis : (AddNeighbors P { s with open_list := rest } c).visited c = true :=
          (AddNeighbors_visited P _ c c).mpr
            (Or.inl (hinv.open_visited c (hperm.mem_iff.mp (by simp))))
        obtain ⟨k, hk⟩ := hinv2.chain c hc_vis
        obtain ⟨hk2, hn2, hd2⟩ := ChainTo_congr P _ _ hinv2.parent_visited hrel2.2.2.2.2.1 hk
          hc_vis
        rw [AStarSearchLoop, if_pos (List.length_pos.mpr hnil)] at h1
        rw [AStarSearchLoop, if_pos (List.length_pos.mpr hnil2)] at h2
        simp only [hnn, hnn2, hg, if_true] at h1 h2
        cases hc1 : ConstructFinalPath P fuel (AddNeighbors P { s with open_list := rest } c) c with
        | none => simp [hc1] at h1
        | some q1 =>
          cases hc2 : ConstructFinalPath P fuel
              (AddNeighbors P { t with open_list := rest } c) c with
          | none => simp [hc2] at h2
          | some q2 =>
            have e1 := ConstructFinalPath_eq_of_chain P _ hk fuel q1 hc1
            have e2 := ConstructFinalPath_eq_of_chain P _ hk2 fuel q2 hc2
            subst e1 e2
            simp only [hc1, hc2, Option.some.injEq, Prod.mk.injEq] at h1 h2
            obtain ⟨rfl, rfl⟩ := h1
            obtain ⟨rfl, rfl⟩ := h2
            refine ⟨rfl, ?_, ?_, hrel2.1, hrel2.2.2.2.2.2.2.1⟩
            · simp only [hn2]
            · simp only [hd2]
      · have hg2 : atGoal P c = false := by simpa using hg
        rw [AStarSearchLoop_continue sort P fuel s c rest hnil hnn hg2] at h1
        rw [AStarSearchLoop_continue sort P fuel t c rest hnil2 hnn2 hg2] at h2
        exact ih _ _ e1 e2 r1 r2 hinv2 hrel2 h1 h2

theorem SameSearch_initState (P : RoutePlanner α) (s t : State α) (hs : Fresh s)
    (ht : Fresh t) (hpath : s.path = t.path) (hdist : s.distance = t.distance) :
    SameSearch P (s.g_value P.start_node - t.g_value P.start_node) (initState P s)
      (initState P t) := by
  have hvis : ∀ u : State α, Fresh u → ∀ v, (initState P u).visited v = true →
      v = P.start_node := by
    intro u hu v hv
    by_contra hne
    simp [initState, Function.update_noteq hne, hu.1 v] at hv
  refine ⟨?_, ?_, hpath, hdist, ?_, ?_, ?_, ?_⟩
  · funext v
    by_cases hv : v = P.start_node
    · simp [initState, hv]
    · simp [initState, Function.update_noteq hv, hs.1 v, ht.1 v]
  · simp [initState, hs.2, ht.2]
  · intro v hv hne
    exact absurd (hvis s hs v hv) hne
  · intro v hv hne
    simp [initState, hs.2] at hv
    exact absurd hv hne
  · intro v hv
    rw [hvis s hs v hv]
    simp [initState]
  · intro _
    simp [initState, hs.2]

end Simulation

section SimulationClaims

variable {α : Type} [LinearOrderedCommRing α]

/-- Claim C9, amended: `AStarSearch` does not reset the search state. What holds is: for
two pre-states of the same graph and planner that are both fresh (no node visited,
`open_list` empty), have the same `path` and `distance`, agree on the `g_value` of
`start_node`, and differ only in the other `g_value`, the `h_value` and the `parent`
left on the nodes, `AStarSearch` returns (for every large enough fuel) through the same
exit with the same path and the same total distance; the two searches visit the same
nodes and leave the same `g_value` on each of them. The `g_value` of `start_node` is
never assigned (line 32 reads it), so it has to be the same in the two states. -/
theorem C9_fresh_states_same_result {sort : (Nat → Nat → Bool) → List Nat → List Nat}
    (hs : IsStdSort sort) (P : RoutePlanner α) (hwf : WellFormed P) (s t : State α)
    (hsf : Fresh s) (htf : Fresh t) (hpath : s.path = t.path)
    (hdist : s.distance = t.distance)
    (hg : s.g_value P.start_node = t.g_value P.start_node) :
    ∃ fuel0, ∀ fuel, fuel0 ≤ fuel → ∃ e r1 r2,
      AStarSearch sort P fuel s = some (e, r1) ∧ AStarSearch sort P fuel t = some (e, r2) ∧
      r1.path = r2.path ∧ r1.distance = r2.distance ∧ r1.visited = r2.visited ∧
      ∀ v, r1.visited v = true → r1.g_value v = r2.g_value v := by
  obtain ⟨f1, h1⟩ := AStarSearchLoop_total hs P hwf (Inv P) (fun _ h => h)
    (fun s c rest h hperm _ _ => Inv_step P hwf s c rest h hperm)
    (initState P s) (Inv_initState_of_fresh P hwf s hsf)
  obtain ⟨f2, h2⟩ := AStarSearchLoop_total hs P hwf (Inv P) (fun _ h => h)
    (fun s c rest h hperm _ _ => Inv_step P hwf s c rest h hperm)
    (initState P t) (Inv_initState_of_fresh P hwf t htf)
  refine ⟨max f1 f2, fun fuel hfuel => ?_⟩
  obtain ⟨e1, r1, hrun1, -⟩ := h1 fuel (le_trans (le_max_left _ _) hfuel)
  obtain ⟨e2, r2, hrun2, -⟩ := h2 fuel (le_trans (le_max_right _ _) hfuel)
  obtain ⟨he, hp, hd, hv, hgv⟩ := AStarSearchLoop_sameSearch hs P hwf _ fuel _ _ e1 e2 r1 r2
    (Inv_initState_of_fresh P hwf s hsf) (SameSearch_initState P s t hsf htf hpath hdist)
    hrun1 hrun2
  subst he
  refine ⟨e1, r1, r2, hrun1, hrun2, hp, hd, hv, fun v hvv => ?_⟩
  have := hgv v hvv
  rwa [hg, sub_self, add_zero] at this

end SimulationClaims

section DiamondLemmas

variable {α : Type} [LinearOrderedCommRing α]

theorem perm_singleton_split {rest : List Nat} {c x : Nat} (h : (rest ++ [c]).Perm [x]) :
    rest = [] ∧ c = x := by
  have hlen := h.length_eq
  have hrest : rest = [] := by
    cases rest with
    | nil => rfl
    | cons a l => simp at hlen
  subst hrest
  exact ⟨rfl, by simpa using h.mem_iff.mp (List.mem_singleton_self c)⟩

theorem perm_pair_split {rest : List Nat} {c x y : Nat} (h : (rest ++ [c]).Perm [x, y]) :
    (c = x ∧ rest = [y]) ∨ (c = y ∧ rest = [x]) := by
  have h2 : (c :: rest).Perm [x, y] := (List.perm_append_singleton c rest).symm.trans h
  have hc : c ∈ [x, y] := h2.mem_iff.mp (List.mem_cons_self _ _)
  rcases List.mem_cons.mp hc with rfl | hc2
  · exact Or.inl ⟨rfl, List.perm_singleton.mp h2.cons_inv⟩
  · have hcy : c = y := by simpa using hc2
    subst hcy
    exact Or.inr ⟨rfl, List.perm_singleton.mp (h2.trans (List.Perm.swap c x [])).cons_inv⟩

theorem FindNeighbors_perm (M : RouteModel α) (s : State α) (c : Nat) (l : List Nat)
    (h : (M.adj c).Perm l) :
    (FindNeighbors M s c).Perm (l.filter (fun m => !s.visited m)) :=
  h.filter _

end DiamondLemmas

section DiamondClaim

variable {α : Type} [LinearOrderedCommRing α]

end DiamondClaim

section SecondRunWitnesses

/-- Claim C8, amended, on the diamond graph from node `0` to node `3`. -/
theorem C8_second_run_same_path_witness :
    ∃ fuel0, ∀ fuel, fuel0 ≤ fuel → ∃ e1 r1 e2 r2,
      AStarSearch insertionSort diamondPlanner fuel freshState = some (e1, r1) ∧
      AStarSearch insertionSort diamondPlanner fuel r1 = some (e2, r2) ∧
      r2.path = r1.path ∧ r2.distance = r1.distance ∧ r2.path.length = r1.path.length :=
  C8_second_run_same_path insertionSort_isStdSort diamondPlanner wellFormed_diamondPlanner
    freshState fresh_freshState (by decide)

/-- Claim C8 fails as stated: in `twinModel` the first search from node `0` to node `1`
on a fresh state stores the path `0, 1` of distance `1` and leaves node `2` in
`open_list`; the second search on the state left by the first expands node `2`,
reaches node `3`, which has the coordinates of `end_node`, and stores the path
`0, 2, 3` of distance `5`. No two nodes of `open_list` ever have equal keys. -/
theorem C8_counterexample :
    WellFormed twinPlanner ∧ Fresh freshState ∧
      ∃ r1 r2, AStarSearch insertionSort twinPlanner 5 freshState = some (Exit.found, r1) ∧
        AStarSearch insertionSort twinPlanner 5 r1 = some (Exit.found, r2) ∧
        r1.path = [0, 1] ∧ r1.distance = 1 ∧ r2.path = [0, 2, 3] ∧ r2.distance = 5 := by
  have hrun : (AStarSearch insertionSort twinPlanner 5 freshState).bind
      (fun q1 => (AStarSearch insertionSort twinPlanner 5 q1.2).map
        (fun q2 => (q1.1, q1.2.path, q1.2.distance, q2.1, q2.2.path, q2.2.distance))) =
      some (Exit.found, [0, 1], 1, Exit.found, [0, 2, 3], 5) := by decide
  refine ⟨by unfold WellFormed; decide, fresh_freshState, ?_⟩
  cases h1 : AStarSearch insertionSort twinPlanner 5 freshState with
  | none => simp [h1] at hrun
  | some q1 =>
    obtain ⟨e1, r1⟩ := q1
    cases h2 : AStarSearch insertionSort twinPlanner 5 r1 with
    | none => simp [h1, h2] at hrun
    | some q2 =>
      obtain ⟨e2, r2⟩ := q2
      simp only [h1, h2, Option.some_bind, Option.map_some', Option.some.injEq,
        Prod.mk.injEq] at hrun
      obtain ⟨rfl, hp1, hd1, rfl, hp2, hd2⟩ := hrun
      exact ⟨r1, r2, rfl, h2, hp1, hd1, hp2, hd2⟩

/-- Claim C9, amended, on the diamond graph, for `freshState` and `staleValuesState`, which
agree on the `g_value` of node `0` and differ in every other value left on the nodes. -/
theorem C9_fresh_states_same_result_witness :
    ∃ fuel0, ∀ fuel, fuel0 ≤ fuel → ∃ e r1 r2,
      AStarSearch insertionSort diamondPlanner fuel freshState = some (e, r1) ∧
      AStarSearch insertionSort diamondPlanner fuel staleValuesState = some (e, r2) ∧
      r1.path = r2.path ∧ r1.distance = r2.distance ∧ r1.visited = r2.visited ∧
      ∀ v, r1.visited v = true → r1.g_value v = r2.g_value v :=
  C9_fresh_states_same_result insertionSort_isStdSort diamondPlanner wellFormed_diamondPlanner
    freshState staleValuesState fresh_freshState ⟨fun _ => rfl, rfl⟩ rfl rfl rfl

/-- Claim C9 fails as stated: `freshState` and `visitedState` differ only in the
`visited` value of node `1`. On the graph `0 - 1`, from node `0` to node `1`, the search
from `freshState` stores the path `0, 1` of distance `1`; from `visitedState` node `1` is
never put in `open_list`, the loop ends with `open_list` exhausted and the path stays
empty: nothing resets the `visited` value. -/
theorem C9_counterexample :
    visitedState.parent = freshState.parent ∧ visitedState.g_value = freshState.g_value ∧
      visitedState.h_value = freshState.h_value ∧
      visitedState.open_list = freshState.open_list ∧
      visitedState.path = freshState.path ∧ visitedState.distance = freshState.distance ∧
      (∃ r, AStarSearch insertionSort edgePlanner 3 freshState = some (Exit.found, r) ∧
        r.path = [0, 1] ∧ r.distance = 1) ∧
      (∃ r, AStarSearch insertionSort edgePlanner 3 visitedState = some (Exit.exhausted, r) ∧
        r.path = [] ∧ r.distance = 0) := by
  have hrun1 : (AStarSearch insertionSort edgePlanner 3 freshState).map
      (fun q => (q.1, q.2.path, q.2.distance)) = some (Exit.found, [0, 1], 1) := by decide
  have hrun2 : (AStarSearch insertionSort edgePlanner 3 visitedState).map
      (fun q => (q.1, q.2.path, q.2.distance)) = some (Exit.exhausted, [], 0) := by decide
  refine ⟨rfl, rfl, rfl, rfl, rfl, rfl, ?_, ?_⟩
  · cases h1 : AStarSearch insertionSort edgePlanner 3 freshState with
    | none => simp [h1] at hrun1
    | some q =>
      obtain ⟨e, r⟩ := q
      simp only [h1, Option.map_some', Option.some.injEq, Prod.mk.injEq] at hrun1
      obtain ⟨rfl, hp, hd⟩ := hrun1
      exact ⟨r, rfl, hp, hd⟩
  · cases h2 : AStarSearch insertionSort edgePlanner 3 visitedState with
    | none => simp [h2] at hrun2
    | some q =>
      obtain ⟨e, r⟩ := q
      simp only [h2, Option.map_some', Option.some.injEq, Prod.mk.injEq] at hrun2
      obtain ⟨rfl, hp, hd⟩ := hrun2
      exact ⟨r, rfl, hp, hd⟩

end SecondRunWitnesses


section LocalLemmas

variable {α : Type} [LinearOrderedCommRing α]

theorem distance_le_pathLength (M : RouteModel α) (hm : IsMetric M) :
    ∀ (path : List Nat) (n m : Nat), path.head? = some n → path.getLast? = some m →
      M.distance n m ≤ pathLength M path := by
  intro path
  induction path with
  | nil =>
    intro n m h
    simp at h
  | cons a l ih =>
    intro n m hh hl
    have ha : a = n := by simpa using hh
    subst ha
    cases l with
    | nil =>
      have : a = m := by simpa using hl
      subst this
      simp [pathLength, hm.1 a]
    | cons b l2 =>
      rw [List.getLast?_cons_cons] at hl
      have h1 := ih b m rfl hl
      have h2 := hm.2.2 a b m
      simp only [pathLength]
      linarith

omit [LinearOrderedCommRing α] in
theorem chainNodes_chain (start_node : Nat) (parent : Nat → Option Nat) {v k : Nat}
    (h : ChainTo start_node parent v k) :
    List.Chain' (fun a b => parent a = some b) (chainNodes parent k v) := by
  induction h with
  | root => simp [chainNodes]
  | @step v p k _ hp _ ih =>
    simp only [chainNodes, hp]
    rw [List.chain'_cons']
    refine ⟨?_, ih⟩
    intro y hy
    rw [chainNodes_head] at hy
    cases hy
    exact hp

theorem NextNode_nil {sort : (Nat → Nat → Bool) → List Nat → List Nat} (hs : IsStdSort sort)
    (s : State α) (hempty : s.open_list = []) :
    sort (scoreGreater s) s.open_list = [] := by
  have := hs.1 (scoreGreater s) s.open_list (strictWeak_scoreGreater s)
  rw [hempty] at this ⊢
  exact List.Perm.eq_nil this

theorem mem_NextNodeCalls (sort : (Nat → Nat → Bool) → List Nat → List Nat)
    (P : RoutePlanner α) :
    ∀ (fuel : Nat) (s t : State α), t ∈ NextNodeCalls sort P fuel s → t.open_list ≠ [] := by
  intro fuel
  induction fuel with
  | zero =>
    intro s t h
    simp [NextNodeCalls] at h
  | succ fuel ih =>
    intro s t h
    rw [NextNodeCalls] at h
    by_cases hlen : s.open_list.length > 0
    · rw [if_pos hlen, List.mem_cons] at h
      rcases h with rfl | h
      · exact List.length_pos.mp hlen
      · cases hnn : NextNode sort s with
        | none => simp [hnn] at h
        | some q =>
          obtain ⟨c, s1⟩ := q
          simp only [hnn] at h
          by_cases hg : atGoal P c = true
          · simp [hg] at h
          · rw [if_neg hg] at h
            exact ih _ t h
    · simp [hlen] at h

end LocalLemmas

section LocalClaims

variable {α : Type} [LinearOrderedCommRing α]

/-- Claim C12: when the distance of the model is a metric, the edge cost being the
distance of the endpoints, `CalculateHValue n` is at most the sum of the costs along
every sequence of nodes that leads from `n` to `end_node` (in particular along every
edge path), and `CalculateHValue end_node = 0`. -/
theorem C12_heuristic_admissible (P : RoutePlanner α) (hm : IsMetric P.m_Model) :
    (∀ (n : Nat) (path : List Nat), path.head? = some n →
      path.getLast? = some P.end_node → CalculateHValue P n ≤ pathLength P.m_Model path) ∧
    CalculateHValue P P.end_node = 0 := by
  refine ⟨fun n path hh hl => ?_, hm.1 _⟩
  unfold CalculateHValue
  rw [hm.2.1]
  exact distance_le_pathLength P.m_Model hm path n P.end_node hh hl

/-- Claim C13: from a node `goal` whose parent chain reaches `start_node` in `k` steps
(with fuel for `k` iterations), `ConstructFinalPath` returns a list of exactly `k + 1`
nodes whose first element is `start_node`, whose last element is `goal`, and in which
every element after the first has the preceding element as its parent. -/
theorem C13_ConstructFinalPath_is_parent_chain (P : RoutePlanner α) (s : State α)
    (goal k : Nat) (hchain : ChainTo P.start_node s.parent goal k) (fuel : Nat)
    (hfuel : k ≤ fuel) :
    ∃ path r, ConstructFinalPath P fuel s goal = some (path, r) ∧ path.length = k + 1 ∧
      path.head? = some P.start_node ∧ path.getLast? = some goal ∧
      List.Chain' (fun a b => s.parent b = some a) path := by
  refine ⟨_, _, ConstructFinalPath_of_chain P s hchain fuel hfuel, ?_, ?_, ?_, ?_⟩
  · rw [List.length_reverse]
    exact chainNodes_length P.start_node s.parent hchain
  · rw [List.head?_reverse]
    exact chainNodes_getLast P.start_node s.parent hchain
  · rw [List.getLast?_reverse]
    exact chainNodes_head s.parent k goal
  · rw [List.chain'_reverse]
    exact chainNodes_chain P.start_node s.parent hchain

/-- Claim C14, amended: `NextNode` has no branch for an empty `open_list`. Called with an
empty `open_list` it has no defined result (`back()` and `pop_back()` on an empty
vector): it neither reports an `EmptyFrontier` error nor leaves a state, where the
frontier selection of the spec returns `EmptyFrontier` with the state unchanged. On a
non-empty `open_list` the two agree. -/
theorem C14_NextNode_empty_undefined {sort : (Nat → Nat → Bool) → List Nat → List Nat}
    (hs : IsStdSort sort) (s : State α) :
    (s.open_list = [] →
      NextNode sort s = none ∧ PopBest sort s = PopResult.EmptyFrontier s) ∧
    (s.open_list ≠ [] →
      ∃ n t, NextNode sort s = some (n, t) ∧ PopBest sort s = PopResult.node n t) := by
  constructor
  · intro hempty
    have hnil := NextNode_nil hs s hempty
    simp [NextNode, PopBest, hnil]
  · intro hne
    obtain ⟨n, rest, hnn, -, -⟩ := NextNode_some hs s hne
    refine ⟨n, _, hnn, ?_⟩
    unfold NextNode at hnn
    unfold PopBest
    cases hgl : (sort (scoreGreater s) s.open_list).getLast? with
    | none => simp [hgl] at hnn
    | some x =>
      simp only [hgl, Option.some.injEq, Prod.mk.injEq] at hnn ⊢
      rw [hnn.1, hnn.2]

/-- Claim C17: every state on which the loop of `AStarSearch` calls `NextNode` has a
non-empty `open_list`, whatever the state the search is started in; so every such call
returns a node, and the case of `NextNode` without a defined result is never met. -/
theorem C17_NextNode_called_on_nonempty {sort : (Nat → Nat → Bool) → List Nat → List Nat}
    (hs : IsStdSort sort) (P : RoutePlanner α) (fuel : Nat) (s t : State α)
    (ht : t ∈ NextNodeCalls sort P fuel (initState P s)) :
    t.open_list ≠ [] ∧ ∃ n r, NextNode sort t = some (n, r) := by
  have hne := mem_NextNodeCalls sort P fuel _ t ht
  obtain ⟨n, rest, hnn, -, -⟩ := NextNode_some hs t hne
  exact ⟨hne, n, _, hnn⟩

end LocalClaims

section ConstructorClaims

variable {α : Type} [LinearOrderedField α]

theorem foldl_closest_lt (far : Nat → α) (n : Nat) :
    ∀ (l : List Nat) (best : Nat), best < n → (∀ v ∈ l, v < n) →
      l.foldl (fun best v => if far v < far best then v else best) best < n := by
  intro l
  induction l with
  | nil =>
    intro best hb _
    simpa using hb
  | cons a l ih =>
    intro best hb hl
    rw [List.foldl_cons]
    apply ih
    · split
      · exact hl a (List.mem_cons_self _ _)
      · exact hb
    · exact fun v hv => hl v (List.mem_cons_of_mem _ hv)

theorem FindClosestNode_lt (M : RouteModel α) (x y : α) (v : Nat)
    (h : FindClosestNode M x y = Except.ok v) : v < M.size := by
  unfold FindClosestNode at h
  by_cases hz : M.size = 0
  · simp [hz] at h
  · rw [if_neg hz] at h
    have hv := Except.ok.inj h
    rw [← hv]
    exact foldl_closest_lt _ M.size _ 0 (Nat.pos_of_ne_zero hz)
      (fun v hv => List.mem_range.mp hv)

/-- Claim C15: constructing a `RoutePlanner` over a model with zero nodes fails with
`EmptyGraph`; and whenever the constructor yields a planner, its `start_node` and
`end_node` are nodes of the model. -/
theorem C15_constructor_empty_graph (model : RouteModel α) (start_x start_y end_x end_y : α) :
    (model.size = 0 →
      RoutePlanner.RoutePlanner model start_x start_y end_x end_y =
        Except.error ModelError.EmptyGraph) ∧
    (∀ P, RoutePlanner.RoutePlanner model start_x start_y end_x end_y = Except.ok P →
      P.m_Model = model ∧ P.start_node < model.size ∧ P.end_node < model.size) := by
  constructor
  · intro hz
    simp [RoutePlanner.RoutePlanner, FindClosestNode, hz]
  · intro P hP
    unfold RoutePlanner.RoutePlanner at hP
    simp only at hP
    cases h1 : FindClosestNode model (start_x * 0.01) (start_y * 0.01) with
    | error e => simp [h1] at hP
    | ok a =>
      cases h2 : FindClosestNode model (end_x * 0.01) (end_y * 0.01) with
      | error e => simp [h1, h2] at hP
      | ok b =>
        simp only [h1, h2, Except.ok.injEq] at hP
        subst hP
        exact ⟨rfl, FindClosestNode_lt model _ _ a h1, FindClosestNode_lt model _ _ b h2⟩

end ConstructorClaims

section LocalWitnesses

theorem isMetric_detourModel : IsMetric detourModel := by
  refine ⟨fun a => ?_, fun a b => ?_, fun a b c => ?_⟩
  · simp [detourModel]
  · simp [detourModel, max_comm]
  · simp only [detourModel]
    generalize detourX a = xa
    generalize detourX b = xb
    generalize detourX c = xc
    simp only [max_def]
    split_ifs <;> omega

/-- Claim C12 on `detourModel`, whose distance is the distance of points of a line. -/
theorem C12_heuristic_admissible_witness :
    (∀ (n : Nat) (path : List Nat), path.head? = some n →
      path.getLast? = some detourPlanner.end_node →
      CalculateHValue detourPlanner n ≤ pathLength detourPlanner.m_Model path) ∧
    CalculateHValue detourPlanner detourPlanner.end_node = 0 :=
  C12_heuristic_admissible detourPlanner isMetric_detourModel

/-- Claim C13 on the diamond graph, from node `3` with the parent chain `3, 1, 0`. -/
theorem C13_ConstructFinalPath_is_parent_chain_witness :
    ∃ path r, ConstructFinalPath diamondPlanner 2 chainState 3 = some (path, r) ∧
      path.length = 2 + 1 ∧ path.head? = some diamondPlanner.start_node ∧
      path.getLast? = some 3 ∧
      List.Chain' (fun a b => chainState.parent b = some a) path :=
  C13_ConstructFinalPath_is_parent_chain diamondPlanner chainState 3 2
    (ChainTo.step (by decide) rfl (ChainTo.step (by decide) rfl ChainTo.root)) 2 (le_refl 2)

/-- Claim C14, amended, on a state with an empty `open_list`. -/
theorem C14_NextNode_empty_undefined_witness :
    (freshState.open_list = [] →
      NextNode insertionSort freshState = none ∧
        PopBest insertionSort freshState = PopResult.EmptyFrontier freshState) ∧
    (freshState.open_list ≠ [] →
      ∃ n t, NextNode insertionSort freshState = some (n, t) ∧
        PopBest insertionSort freshState = PopResult.node n t) :=
  C14_NextNode_empty_undefined insertionSort_isStdSort freshState

/-- Claim C14 fails as stated: called on `freshState`, whose `open_list` is empty,
`NextNode` has no defined result; it returns no `EmptyFrontier` error and leaves no
state, which is what the frontier selection of the spec does. -/
theorem C14_counterexample :
    freshState.open_list = [] ∧ NextNode insertionSort freshState = none ∧
      PopBest insertionSort freshState = PopResult.EmptyFrontier freshState :=
  ⟨rfl, rfl, rfl⟩

/-- Claim C17 on the first call of a search on the diamond graph. -/
theorem C17_NextNode_called_on_nonempty_witness :
    (initState diamondPlanner freshState).open_list ≠ [] ∧
      ∃ n r, NextNode insertionSort (initState diamondPlanner freshState) = some (n, r) :=
  C17_NextNode_called_on_nonempty insertionSort_isStdSort diamondPlanner 1 freshState
    (initState diamondPlanner freshState) (List.mem_cons_self _ _)

end LocalWitnesses

section TriangleClaim

variable {α : Type} [LinearOrderedCommRing α]

theorem eq_one_of_mul_self_eq_one {d : α} (h0 : 0 ≤ d) (h : d * d = 1) : d = 1 := by
  rcases mul_self_eq_one_iff.mp h with h1 | h1
  · exact h1
  · rw [h1] at h0
    have : (0 : α) < 1 := zero_lt_one
    linarith

theorem lt_two_of_mul_self_eq_two {d : α} (h : d * d = 2) : d < 2 := by
  by_contra hcon
  have h2 : (2 : α) ≤ d := not_lt.mp hcon
  have h3 : (2 : α) * 2 ≤ d * d := mul_le_mul h2 h2 (by norm_num) (by linarith)
  rw [h] at h3
  norm_num at h3

/-- Claim C11: on the graph with nodes at `(0,0)`, `(1,0)`, `(1,1)`, every pair joined by an
edge, with the Euclidean distance and `MetricScale = 1`, `AStarSearch` from the node at
`(0,0)` to the node at `(1,1)` on a fresh state returns the path of these two nodes, not
the path of three nodes through `(1,0)`, and the total distance is the square root of
two: the non-negative value whose square is `2`. This holds for every fuel from `3` on
and whatever the sort does with equal keys. -/
theorem C11_triangle_direct_route {sort : (Nat → Nat → Bool) → List Nat → List Nat}
    (hs : IsStdSort sort) (P : RoutePlanner α) (s : State α) (htri : Triangle P.m_Model)
    (heuc : IsEuclidean P.m_Model) (hscale : P.m_Model.MetricScale = 1)
    (hstart : P.start_node = 0) (hend : P.end_node = 2) (hfresh : Fresh s) (fuel : Nat)
    (hfuel : 3 ≤ fuel) :
    ∃ r, AStarSearch sort P fuel s = some (Exit.found, r) ∧ r.path = [0, 2] ∧
      r.path ≠ [0, 1, 2] ∧ 0 ≤ r.distance ∧ r.distance * r.distance = 2 := by
  obtain ⟨f, rfl⟩ : ∃ f, fuel = f + 2 := ⟨fuel - 2, by omega⟩
  obtain ⟨hsize, hx0, hy0, hx1, hy1, hx2, hy2, hadj0, -, -⟩ := htri
  -- the distances that matter
  have e10 := heuc 1 0 (by omega) (by omega)
  have e21 := heuc 2 1 (by omega) (by omega)
  have e20 := heuc 2 0 (by omega) (by omega)
  have e22 := heuc 2 2 (by omega) (by omega)
  rw [hx1, hx0, hy1, hy0] at e10
  rw [hx2, hx1, hy2, hy1] at e21
  rw [hx2, hx0, hy2, hy0] at e20
  have d10 : P.m_Model.distance 1 0 = 1 :=
    eq_one_of_mul_self_eq_one e10.1 (by rw [e10.2]; norm_num)
  have d21 : P.m_Model.distance 2 1 = 1 :=
    eq_one_of_mul_self_eq_one e21.1 (by rw [e21.2]; norm_num)
  have d22 : P.m_Model.distance 2 2 = 0 := by
    have := e22.2
    rw [sub_self, sub_self, mul_zero, add_zero] at this
    exact mul_self_eq_zero.mp this
  have q20 : P.m_Model.distance 2 0 * P.m_Model.distance 2 0 = 2 := by
    rw [e20.2]
    norm_num
  have d20 : P.m_Model.distance 2 0 < 2 := lt_two_of_mul_self_eq_two q20
  have hgoal0 : atGoal P 0 = false := by simp [atGoal, hend, hx0, hx2]
  -- the state in which the loop is entered
  obtain ⟨t0, ht0⟩ : ∃ t0, t0 = initState P s := ⟨_, rfl⟩
  have ht0_open : t0.open_list = [0] := by simp [ht0, initState, hfresh.2, hstart]
  have ht0_vis : ∀ v, t0.visited v = true ↔ v = 0 := by
    intro v
    by_cases hv : v = 0
    · simp [ht0, initState, hv, hstart]
    · simp [ht0, initState, hstart, Function.update_noteq hv, hfresh.1 v, hv]
  have ht0_ne : t0.open_list ≠ [] := by simp [ht0_open]
  -- first iteration: the start node is popped
  obtain ⟨c1, rest1, hnn1, hperm1, -⟩ := NextNode_some hs t0 ht0_ne
  rw [ht0_open] at hperm1
  obtain ⟨hrest1, hc1⟩ := perm_singleton_split hperm1
  subst hrest1 hc1
  obtain ⟨u1, hu1⟩ : ∃ u1, u1 = AddNeighbors P { t0 with open_list := [] } 0 := ⟨_, rfl⟩
  have hmem1 : ∀ v, v ∈ FindNeighbors P.m_Model { t0 with open_list := [] } 0 ↔
      v = 1 ∨ v = 2 := by
    intro v
    rw [mem_FindNeighbors, hadj0.mem_iff]
    have : ({ t0 with open_list := [] } : State α).visited v = false ↔ v ≠ 0 := by
      show t0.visited v = false ↔ _
      rw [Ne, ← ht0_vis v]
      simp
    rw [this]
    simp only [List.mem_cons, List.mem_singleton, List.not_mem_nil, or_false]
    constructor
    · exact fun h => h.1
    · rintro (rfl | rfl)
      · exact ⟨Or.inl rfl, by decide⟩
      · exact ⟨Or.inr rfl, by decide⟩
  have h0_not : (0 : Nat) ∈ FindNeighbors P.m_Model { t0 with open_list := [] } 0 →
      P.m_Model.distance 0 0 = 0 := by
    intro h
    rcases (hmem1 _).mp h with h | h <;> exact absurd h (by decide)
  have hu1_open : u1.open_list.Perm [1, 2] := by
    rw [hu1, AddNeighbors_open_list]
    refine (FindNeighbors_perm P.m_Model _ _ _ hadj0).trans ?_
    have h1v : t0.visited 1 = false := by
      have := (ht0_vis 1).not.mpr (by decide)
      simpa using this
    have h2v : t0.visited 2 = false := by
      have := (ht0_vis 2).not.mpr (by decide)
      simpa using this
    simp [List.filter, h1v, h2v]
  have hu1_vis2 : u1.visited 2 = true := by
    rw [hu1, AddNeighbors_visited]
    exact Or.inr (hadj0.mem_iff.mpr (by simp))
  have hu1_par2 : u1.parent 2 = some 0 := by
    rw [hu1, AddNeighbors_parent, if_pos ((hmem1 2).mpr (Or.inr rfl))]
  have hu1_g1 : u1.g_value 1 = t0.g_value 0 + P.m_Model.distance 1 0 := by
    rw [hu1, AddNeighbors_g_value P _ _ _ h0_not, if_pos ((hmem1 1).mpr (Or.inl rfl))]
  have hu1_g2 : u1.g_value 2 = t0.g_value 0 + P.m_Model.distance 2 0 := by
    rw [hu1, AddNeighbors_g_value P _ _ _ h0_not, if_pos ((hmem1 2).mpr (Or.inr rfl))]
  have hu1_h1 : u1.h_value 1 = P.m_Model.distance 2 1 := by
    rw [hu1, AddNeighbors_h_value, if_pos ((hmem1 1).mpr (Or.inl rfl))]
    simp [CalculateHValue, hend]
  have hu1_h2 : u1.h_value 2 = P.m_Model.distance 2 2 := by
    rw [hu1, AddNeighbors_h_value, if_pos ((hmem1 2).mpr (Or.inr rfl))]
    simp [CalculateHValue, hend]
  have hu1_ne : u1.open_list ≠ [] := by
    intro h
    rw [h] at hu1_open
    simpa using hu1_open.length_eq
  -- second iteration: the end node is popped
  obtain ⟨c2, rest2, hnn2, hperm2, hmin2⟩ := NextNode_some hs u1 hu1_ne
  have hc2 : c2 = 2 ∧ rest2 = [1] := by
    rcases perm_pair_split (hperm2.trans hu1_open) with h | h
    · exfalso
      have := hmin2 2 (hu1_open.mem_iff.mpr (by simp))
      rw [h.1, hu1_g1, hu1_g2, hu1_h1, hu1_h2, d10, d21, d22] at this
      linarith
    · exact h
  obtain ⟨hc2a, hrest2⟩ := hc2
  subst hc2a hrest2
  obtain ⟨u2, hu2⟩ : ∃ u2, u2 = AddNeighbors P { u1 with open_list := [1] } 2 := ⟨_, rfl⟩
  have hu2_par2 : u2.parent 2 = some 0 := by
    rw [hu2, (AddNeighbors_of_visited P { u1 with open_list := [1] } _ _ hu1_vis2).1]
    exact hu1_par2
  have hchain : ChainTo P.start_node u2.parent 2 1 := by
    rw [hstart]
    exact ChainTo.step (by decide) hu2_par2 ChainTo.root
  have hgoal2 : atGoal P 2 = true := by
    rw [← hend]
    exact atGoal_end_node P
  refine ⟨foundState P u2 2 1, ?_, ?_, ?_, ?_, ?_⟩
  · rw [AStarSearch_eq, ← ht0,
      AStarSearchLoop_continue sort P (f + 1) t0 0 [] ht0_ne hnn1 hgoal0, ← hu1, hu2]
    exact AStarSearchLoop_found sort P f u1 2 [1] 1 hu1_ne hnn2 hgoal2 (hu2 ▸ hchain)
      (by omega)
  · simp [foundState, chainNodes, hu2_par2]
  · simp [foundState, chainNodes, hu2_par2]
  · simp only [foundState, chainDistance, hu2_par2, hscale, mul_one, add_zero]
    exact e20.1
  · simp only [foundState, chainDistance, hu2_par2, hscale, mul_one, add_zero]
    exact q20

end TriangleClaim

section TriangleWitness

theorem triangle_triangleModel : Triangle triangleModel :=
  ⟨rfl, rfl, rfl, rfl, rfl, rfl, rfl, List.Perm.refl _, List.Perm.refl _, List.Perm.refl _⟩

theorem isEuclidean_triangleModel : IsEuclidean triangleModel := by
  intro a b ha hb
  have ha3 : a < 3 := ha
  have hb3 : b < 3 := hb
  interval_cases a <;> interval_cases b <;> decide

/-- Claim C11 on the triangle over `ℤ√2`, in which the square root of two is the number
`⟨0, 1⟩`. -/
theorem C11_triangle_direct_route_witness :
    ∃ r, AStarSearch insertionSort trianglePlanner 3 freshTriangleState =
        some (Exit.found, r) ∧ r.path = [0, 2] ∧
      r.path ≠ [0, 1, 2] ∧ 0 ≤ r.distance ∧ r.distance * r.distance = 2 :=
  C11_triangle_direct_route insertionSort_isStdSort trianglePlanner freshTriangleState
    triangle_triangleModel isEuclidean_triangleModel rfl rfl rfl ⟨fun _ => rfl, rfl⟩ 3
    (le_refl 3)

end TriangleWitness

section LoopStateLemmas

variable {α : Type} [LinearOrderedCommRing α]

theorem NextNode_eq_some {sort : (Nat → Nat → Bool) → List Nat → List Nat} (hs : IsStdSort sort)
    (s : State α) (hlen : s.open_list.length > 0) (c : Nat) (s1 : State α)
    (h : NextNode sort s = some (c, s1)) :
    ∃ rest, s1 = { s with open_list := rest } ∧ (rest ++ [c]).Perm s.open_list := by
  obtain ⟨n, rest, hnn, hperm, -⟩ := NextNode_some hs s (List.length_pos.mp hlen)
  rw [hnn] at h
  simp only [Option.some.injEq, Prod.mk.injEq] at h
  obtain ⟨rfl, rfl⟩ := h
  exact ⟨rest, rfl, hperm⟩

theorem Inv_of_LoopState {sort : (Nat → Nat → Bool) → List Nat → List Nat} (hs : IsStdSort sort)
    (P : RoutePlanner α) (hwf : WellFormed P) (s0 : State α) (h0 : Inv P s0) (t : State α)
    (ht : LoopState sort P s0 t) : Inv P t := by
  induction ht with
  | init => exact h0
  | @next s s1 c _ hlen hnn _ ih =>
    obtain ⟨rest, rfl, hperm⟩ := NextNode_eq_some hs s hlen c s1 hnn
    exact Inv_step P hwf s c rest ih hperm

theorem Inv_initState_of_pre (P : RoutePlanner α) (hwf : WellFormed P) (s : State α)
    (hpre : Fresh s ∨ Inv P s) : Inv P (initState P s) :=
  hpre.elim (Inv_initState_of_fresh P hwf s) (Inv_initState P s)

/-- The search invariant is kept by a whole search: it holds in the state left by
`AStarSearch`. -/
theorem Inv_of_AStarSearch {sort : (Nat → Nat → Bool) → List Nat → List Nat}
    (hs : IsStdSort sort) (P : RoutePlanner α) (hwf : WellFormed P) (s : State α)
    (hpre : Fresh s ∨ Inv P s) (fuel : Nat) (e : Exit) (r : State α)
    (h : AStarSearch sort P fuel s = some (e, r)) : Inv P r := by
  obtain ⟨f0, h0⟩ := AStarSearchLoop_total hs P hwf (Inv P) (fun _ h => h)
    (fun s c rest h hperm _ _ => Inv_step P hwf s c rest h hperm)
    (initState P s) (Inv_initState_of_pre P hwf s hpre)
  obtain ⟨e2, r2, hrun, hpost⟩ := h0 f0 (le_refl _)
  have heq := AStarSearch_fuel_unique sort P fuel f0 s (e, r) (e2, r2) h hrun
  simp only [Prod.mk.injEq] at heq
  obtain ⟨rfl, rfl⟩ := heq
  rcases hpost with ⟨-, hI, -⟩ | ⟨-, t, c, rest, k, hI, hperm, -, -, hr⟩
  · exact hI
  · rw [hr]
    exact Inv_foundState P _ c k (Inv_step P hwf t c rest hI hperm)

omit [LinearOrderedCommRing α] in
theorem chainNodes_sub (start_node : Nat) (parent : Nat → Option Nat) {v k : Nat}
    (h : ChainTo start_node parent v k) :
    ∀ w ∈ chainNodes parent k v, ∃ j, j ≤ k ∧ ChainTo start_node parent w j := by
  induction h with
  | root =>
    intro w hw
    simp only [chainNodes, List.mem_singleton] at hw
    exact ⟨0, le_refl _, hw ▸ ChainTo.root⟩
  | @step v p k hne hp hch ih =>
    intro w hw
    simp only [chainNodes, hp, List.mem_cons] at hw
    rcases hw with rfl | hw
    · exact ⟨k + 1, le_refl _, ChainTo.step hne hp hch⟩
    · obtain ⟨j, hj, hc⟩ := ih w hw
      exact ⟨j, Nat.le_succ_of_le hj, hc⟩

omit [LinearOrderedCommRing α] in
/-- A parent chain that reaches `start_node` meets no node twice. -/
theorem chainNodes_nodup (start_node : Nat) (parent : Nat → Option Nat) {v k : Nat}
    (h : ChainTo start_node parent v k) : (chainNodes parent k v).Nodup := by
  induction h with
  | root => simp [chainNodes]
  | @step v p k hne hp hch ih =>
    simp only [chainNodes, hp, List.nodup_cons]
    refine ⟨fun hmem => ?_, ih⟩
    obtain ⟨j, hj, hc⟩ := chainNodes_sub start_node parent hch v hmem
    have := ChainTo_unique start_node parent (ChainTo.step hne hp hch) j hc
    omega

theorem Assigned_step (P : RoutePlanner α) (s : State α) (c : Nat) (rest : List Nat)
    (hinv : Inv P s) (ha : Assigned P s) (hperm : (rest ++ [c]).Perm s.open_list) :
    Assigned P (AddNeighbors P { s with open_list := rest } c) := by
  have hc_vis : s.visited c = true := hinv.open_visited c (hperm.mem_iff.mp (by simp))
  have hc_keep := AddNeighbors_of_visited P { s with open_list := rest } c c hc_vis
  have hc_not : c ∉ FindNeighbors P.m_Model { s with open_list := rest } c := by
    rw [mem_FindNeighbors]
    simp [hc_vis]
  intro v hv hne
  by_cases hvs : s.visited v = true
  · obtain ⟨h1, p, hp, hpv, hg⟩ := ha v hvs hne
    obtain ⟨k1, k2, k3, -⟩ := AddNeighbors_of_visited P { s with open_list := rest } c v hvs
    obtain ⟨-, m2, -, m4⟩ := AddNeighbors_of_visited P { s with open_list := rest } c p hpv
    exact ⟨k3.trans h1, p, k1.trans hp, m4, by rw [k2, m2]; exact hg⟩
  · have hvn : v ∈ FindNeighbors P.m_Model { s with open_list := rest } c := by
      rw [AddNeighbors_visited] at hv
      rw [mem_FindNeighbors]
      rcases hv with h | h
      · exact absurd h hvs
      · exact ⟨h, by simpa using hvs⟩
    refine ⟨?_, c, ?_, hc_keep.2.2.2, ?_⟩
    · rw [AddNeighbors_h_value, if_pos hvn]
    · rw [AddNeighbors_parent, if_pos hvn]
    · rw [AddNeighbors_g_value P _ c v (fun h => absurd h hc_not), if_pos hvn, hc_keep.2.1]

theorem Assigned_initState (P : RoutePlanner α) (s : State α) (hf : Fresh s) :
    Assigned P (initState P s) := by
  intro v hv hne
  simp [initState, Function.update_noteq hne, hf.1 v] at hv

theorem Assigned_of_LoopState {sort : (Nat → Nat → Bool) → List Nat → List Nat}
    (hs : IsStdSort sort) (P : RoutePlanner α) (hwf : WellFormed P) (s0 : State α)
    (h0 : Inv P s0) (ha : Assigned P s0) (t : State α) (ht : LoopState sort P s0 t) :
    Assigned P t := by
  induction ht with
  | init => exact ha
  | @next s s1 c hprev hlen hnn _ ih =>
    obtain ⟨rest, rfl, hperm⟩ := NextNode_eq_some hs s hlen c s1 hnn
    exact Assigned_step P s c rest (Inv_of_LoopState hs P hwf s0 h0 s hprev) ih hperm

theorem start_values_of_LoopState {sort : (Nat → Nat → Bool) → List Nat → List Nat}
    (hs : IsStdSort sort) (P : RoutePlanner α) (hwf : WellFormed P) (s0 : State α)
    (h0 : Inv P s0) (t : State α) (ht : LoopState sort P s0 t) :
    t.g_value P.start_node = s0.g_value P.start_node ∧
      t.h_value P.start_node = s0.h_value P.start_node := by
  induction ht with
  | init => exact ⟨rfl, rfl⟩
  | @next s s1 c hprev hlen hnn _ ih =>
    obtain ⟨rest, rfl, -⟩ := NextNode_eq_some hs s hlen c s1 hnn
    have hinv := Inv_of_LoopState hs P hwf s0 h0 s hprev
    obtain ⟨-, k2, k3, -⟩ := AddNeighbors_of_visited P { s with open_list := rest } c
      P.start_node hinv.start_visited
    exact ⟨k2.trans ih.1, k3.trans ih.2⟩

/-- With the values assigned by the search, the `g_value` of a visited node is the
`g_value` of `start_node` plus the distances along its parent chain. -/
theorem g_value_eq_chainDistance (P : RoutePlanner α) (s : State α) (ha : Assigned P s)
    {v k : Nat} (h : ChainTo P.start_node s.parent v k) (hv : s.visited v = true) :
    s.g_value v = s.g_value P.start_node + chainDistance P.m_Model s.parent k v := by
  induction h with
  | root => simp [chainDistance]
  | @step v p k hne hp _ ih =>
    obtain ⟨-, p2, hp2, hp2v, hg⟩ := ha v hv hne
    rw [hp] at hp2
    cases hp2
    rw [hg, ih hp2v]
    simp only [chainDistance, hp]
    ring

end LoopStateLemmas

section LoopStateClaims

variable {α : Type} [LinearOrderedCommRing α]

/-- Claim C16: during a search started from a fresh state, or from a state left by an
earlier search of the same planner (one that satisfies `Inv`), at every test of the loop:
an expansion leaves the parent of every visited node as it is and keeps the node
visited, and gives a node it discovers the popped node as parent, so that a parent is
set at most once; every node in `open_list` is visited, and from every visited node
(in `open_list` or already popped) the parent chain reaches `start_node` in finitely
many steps without repeating a node; therefore the `while` loop of
`ConstructFinalPath` terminates when it is called from the goal branch. -/
theorem C16_parent_tree {sort : (Nat → Nat → Bool) → List Nat → List Nat} (hs : IsStdSort sort)
    (P : RoutePlanner α) (hwf : WellFormed P) (s : State α) (hpre : Fresh s ∨ Inv P s)
    (t : State α) (ht : LoopState sort P (initState P s) t) :
    (∀ c s1, t.open_list.length > 0 → NextNode sort t = some (c, s1) →
      (∀ v, t.visited v = true →
        (AddNeighbors P s1 c).parent v = t.parent v ∧
        (AddNeighbors P s1 c).visited v = true) ∧
      (∀ v, t.visited v = false → (AddNeighbors P s1 c).visited v = true →
        (AddNeighbors P s1 c).parent v = some c)) ∧
    (∀ v ∈ t.open_list, t.visited v = true) ∧
    (∀ v, t.visited v = true →
      ∃ k, ChainTo P.start_node t.parent v k ∧ (chainNodes t.parent k v).Nodup) ∧
    (∀ c s1, t.open_list.length > 0 → NextNode sort t = some (c, s1) →
      atGoal P c = true →
      ∃ k, ∀ fuel, k ≤ fuel →
        ∃ path r, ConstructFinalPath P fuel (AddNeighbors P s1 c) c = some (path, r)) := by
  have hinv := Inv_of_LoopState hs P hwf _ (Inv_initState_of_pre P hwf s hpre) t ht
  refine ⟨?_, hinv.open_visited, ?_, ?_⟩
  · intro c s1 hlen hnn
    obtain ⟨rest, rfl, -⟩ := NextNode_eq_some hs t hlen c s1 hnn
    constructor
    · intro v hv
      obtain ⟨k1, -, -, k4⟩ := AddNeighbors_of_visited P { t with open_list := rest } c v hv
      exact ⟨k1, k4⟩
    · intro v hv hv2
      have hvn : v ∈ FindNeighbors P.m_Model { t with open_list := rest } c := by
        rw [AddNeighbors_visited] at hv2
        rw [mem_FindNeighbors]
        rcases hv2 with h | h
        · rw [show ({ t with open_list := rest } : State α).visited v = t.visited v from rfl,
            hv] at h
          exact absurd h (by simp)
        · exact ⟨h, hv⟩
      rw [AddNeighbors_parent, if_pos hvn]
  · intro v hv
    obtain ⟨k, hk⟩ := hinv.chain v hv
    exact ⟨k, hk, chainNodes_nodup P.start_node t.parent hk⟩
  · intro c s1 hlen hnn _
    obtain ⟨rest, rfl, hperm⟩ := NextNode_eq_some hs t hlen c s1 hnn
    have hinv2 := Inv_step P hwf t c rest hinv hperm
    have hc_vis : t.visited c = true := hinv.open_visited c (hperm.mem_iff.mp (by simp))
    obtain ⟨k, hk⟩ := hinv2.chain c ((AddNeighbors_visited P _ c c).mpr (Or.inl hc_vis))
    exact ⟨k, fun fuel hfuel => ⟨_, _, ConstructFinalPath_of_chain P _ hk fuel hfuel⟩⟩

/-- Claim C18, amended: during a search started from a fresh state, at every test of the
loop, every node of `open_list` other than `start_node` has had its `h_value` and its
`g_value` assigned by `AddNeighbors` before it was inserted (`h_value` is
`CalculateHValue`, `g_value` is the `g_value` of its parent plus the distance to it);
`start_node`, inserted at line 92, has not: its `g_value` and `h_value` are the values
the node held before the search. -/
theorem C18_open_list_values_assigned {sort : (Nat → Nat → Bool) → List Nat → List Nat}
    (hs : IsStdSort sort) (P : RoutePlanner α) (hwf : WellFormed P) (s : State α)
    (hfresh : Fresh s) (t : State α) (ht : LoopState sort P (initState P s) t) :
    (∀ v ∈ t.open_list, v ≠ P.start_node →
      t.h_value v = CalculateHValue P v ∧
      ∃ p, t.parent v = some p ∧ t.g_value v = t.g_value p + P.m_Model.distance v p) ∧
    t.g_value P.start_node = s.g_value P.start_node ∧
    t.h_value P.start_node = s.h_value P.start_node := by
  have h0 := Inv_initState_of_fresh P hwf s hfresh
  have hinv := Inv_of_LoopState hs P hwf _ h0 t ht
  have ha := Assigned_of_LoopState hs P hwf _ h0 (Assigned_initState P s hfresh) t ht
  refine ⟨fun v hv hne => ?_, start_values_of_LoopState hs P hwf _ h0 t ht⟩
  obtain ⟨h1, p, hp, -, hg⟩ := ha v (hinv.open_visited v hv) hne
  exact ⟨h1, p, hp, hg⟩

/-- Claim C20: during a search started from a fresh state, at every test of the loop,
every visited node `n` has a parent chain to `start_node` and `g_value n` is
`g_value start_node` plus the sum of the node-to-parent distances along that chain;
and when a node at the goal is popped, `ConstructFinalPath` returns (given fuel for the
chain) with `distance = (g_value goal - g_value start_node) * MetricScale()`. -/
theorem C20_g_value_is_chain_distance {sort : (Nat → Nat → Bool) → List Nat → List Nat}
    (hs : IsStdSort sort) (P : RoutePlanner α) (hwf : WellFormed P) (s : State α)
    (hfresh : Fresh s) (t : State α) (ht : LoopState sort P (initState P s) t) :
    (∀ n, t.visited n = true →
      ∃ k, ChainTo P.start_node t.parent n k ∧
        t.g_value n = t.g_value P.start_node + chainDistance P.m_Model t.parent k n) ∧
    (∀ goal s1, t.open_list.length > 0 → NextNode sort t = some (goal, s1) →
      atGoal P goal = true →
      ∃ k, ∀ fuel, k ≤ fuel →
        ∃ path r, ConstructFinalPath P fuel (AddNeighbors P s1 goal) goal = some (path, r) ∧
          r.distance =
            (r.g_value goal - r.g_value P.start_node) * P.m_Model.MetricScale) := by
  have h0 := Inv_initState_of_fresh P hwf s hfresh
  have hinv := Inv_of_LoopState hs P hwf _ h0 t ht
  have ha := Assigned_of_LoopState hs P hwf _ h0 (Assigned_initState P s hfresh) t ht
  constructor
  · intro n hn
    obtain ⟨k, hk⟩ := hinv.chain n hn
    exact ⟨k, hk, g_value_eq_chainDistance P t ha hk hn⟩
  · intro c s1 hlen hnn _
    obtain ⟨rest, rfl, hperm⟩ := NextNode_eq_some hs t hlen c s1 hnn
    have hinv2 := Inv_step P hwf t c rest hinv hperm
    have ha2 := Assigned_step P t c rest hinv ha hperm
    have hc_vis : t.visited c = true := hinv.open_visited c (hperm.mem_iff.mp (by simp))
    have hc_vis2 := (AddNeighbors_visited P { t with open_list := rest } c c).mpr
      (Or.inl hc_vis)
    obtain ⟨k, hk⟩ := hinv2.chain c hc_vis2
    refine ⟨k, fun fuel hfuel =>
      ⟨_, _, ConstructFinalPath_of_chain P _ hk fuel hfuel, ?_⟩⟩
    have hg := g_value_eq_chainDistance P _ ha2 hk hc_vis2
    simp only [hg, add_sub_cancel_left]

end LoopStateClaims

section LoopStateWitnesses

theorem loopState_diamondTest2 :
    LoopState insertionSort diamondPlanner (initState diamondPlanner dirtyState) diamondTest2 :=
  @LoopState.next ℤ _ insertionSort diamondPlanner (initState diamondPlanner dirtyState)
    diamondTest1 { diamondTest1 with open_list := [] } 0 LoopState.init (by decide) rfl
    (by decide)

theorem loopState_diamondTest3 :
    LoopState insertionSort diamondPlanner (initState diamondPlanner dirtyState) diamondTest3 :=
  @LoopState.next ℤ _ insertionSort diamondPlanner (initState diamondPlanner dirtyState)
    diamondTest2 { diamondTest2 with open_list := [2] } 1 loopState_diamondTest2 (by decide)
    rfl (by decide)

/-- Claim C16 at the third test of the loop of the search on the diamond graph started from
`dirtyState`: nodes `0` and `1` have been expanded, nodes `0`, `1`, `2`, `3` are visited
with the parents `1 -> 0`, `2 -> 0`, `3 -> 1`, `open_list` holds `2` and `3`, and the next
node popped is node `3`, which is at the goal. -/
theorem C16_parent_tree_witness :
    diamondTest3.open_list = [2, 3] ∧
    (List.range 5).map diamondTest3.visited = [true, true, true, true, false] ∧
    (List.range 4).map diamondTest3.parent = [some 1, some 0, some 0, some 1] ∧
    NextNode insertionSort diamondTest3 = some (3, { diamondTest3 with open_list := [2] }) ∧
    atGoal diamondPlanner 3 = true ∧
    ((∀ c s1, diamondTest3.open_list.length > 0 →
      NextNode insertionSort diamondTest3 = some (c, s1) →
      (∀ v, diamondTest3.visited v = true →
        (AddNeighbors diamondPlanner s1 c).parent v = diamondTest3.parent v ∧
        (AddNeighbors diamondPlanner s1 c).visited v = true) ∧
      (∀ v, diamondTest3.visited v = false →
        (AddNeighbors diamondPlanner s1 c).visited v = true →
        (AddNeighbors diamondPlanner s1 c).parent v = some c)) ∧
    (∀ v ∈ diamondTest3.open_list, diamondTest3.visited v = true) ∧
    (∀ v, diamondTest3.visited v = true →
      ∃ k, ChainTo diamondPlanner.start_node diamondTest3.parent v k ∧
        (chainNodes diamondTest3.parent k v).Nodup) ∧
    (∀ c s1, diamondTest3.open_list.length > 0 →
      NextNode insertionSort diamondTest3 = some (c, s1) →
      atGoal diamondPlanner c = true →
      ∃ k, ∀ fuel, k ≤ fuel →
        ∃ path r, ConstructFinalPath diamondPlanner fuel (AddNeighbors diamondPlanner s1 c) c =
          some (path, r))) :=
  ⟨by decide, by decide, by decide, rfl, by decide,
    C16_parent_tree insertionSort_isStdSort diamondPlanner wellFormed_diamondPlanner dirtyState
      (Or.inl ⟨fun _ => rfl, rfl⟩) diamondTest3 loopState_diamondTest3⟩

/-- Claim C18, amended, at the third test of the loop of the search on the diamond graph
started from `dirtyState`: `open_list` holds nodes `2` and `3`, whose `h_value` (`3` and
`0`) and `g_value` (`6` and `7`) were assigned by `AddNeighbors`, while node `0` still
has the `g_value` `4` and the `h_value` `7` of `dirtyState`. -/
theorem C18_open_list_values_assigned_witness :
    diamondTest3.open_list = [2, 3] ∧
    (List.range 4).map diamondTest3.g_value = [4, 5, 6, 7] ∧
    (List.range 4).map diamondTest3.h_value = [7, 2, 3, 0] ∧
    ((∀ v ∈ diamondTest3.open_list, v ≠ diamondPlanner.start_node →
      diamondTest3.h_value v = CalculateHValue diamondPlanner v ∧
      ∃ p, diamondTest3.parent v = some p ∧
        diamondTest3.g_value v =
          diamondTest3.g_value p + diamondPlanner.m_Model.distance v p) ∧
    diamondTest3.g_value diamondPlanner.start_node =
      dirtyState.g_value diamondPlanner.start_node ∧
    diamondTest3.h_value diamondPlanner.start_node =
      dirtyState.h_value diamondPlanner.start_node) :=
  ⟨by decide, by decide, by decide,
    C18_open_list_values_assigned insertionSort_isStdSort diamondPlanner
      wellFormed_diamondPlanner dirtyState ⟨fun _ => rfl, rfl⟩ diamondTest3
      loopState_diamondTest3⟩

/-- Claim C18 fails as stated for the start node: in a search on the diamond graph
started from the fresh state `dirtyState`, at the first test of the loop `start_node` is
in `open_list` with the `g_value` and the `h_value` it held before the search, here `4`
and `7`; its `h_value` is not the heuristic `CalculateHValue`, which is `3`. Lines 89-92
assign neither. -/
theorem C18_counterexample :
    Fresh dirtyState ∧
      LoopState insertionSort diamondPlanner (initState diamondPlanner dirtyState)
        (initState diamondPlanner dirtyState) ∧
      diamondPlanner.start_node ∈ (initState diamondPlanner dirtyState).open_list ∧
      (initState diamondPlanner dirtyState).g_value diamondPlanner.start_node = 4 ∧
      dirtyState.g_value diamondPlanner.start_node = 4 ∧
      (initState diamondPlanner dirtyState).h_value diamondPlanner.start_node = 7 ∧
      dirtyState.h_value diamondPlanner.start_node = 7 ∧
      CalculateHValue diamondPlanner diamondPlanner.start_node = 3 :=
  ⟨⟨fun _ => rfl, rfl⟩, LoopState.init, by decide, by decide, by decide, by decide,
    by decide, by decide⟩

/-- Claim C20 at the third test of the loop of the search on the diamond graph started from
`dirtyState`, where `g_value start_node = 4`: the visited nodes `0`, `1`, `2`, `3` have the
`g_value` `4`, `5`, `6`, `7`, and the next node popped is node `3`, at the goal, with the
parent chain `3, 1, 0` of length `1 + 2`. -/
theorem C20_g_value_is_chain_distance_witness :
    (List.range 5).map diamondTest3.visited = [true, true, true, true, false] ∧
    (List.range 4).map diamondTest3.g_value = [4, 5, 6, 7] ∧
    NextNode insertionSort diamondTest3 = some (3, { diamondTest3 with open_list := [2] }) ∧
    atGoal diamondPlanner 3 = true ∧
    ((∀ n, diamondTest3.visited n = true →
      ∃ k, ChainTo diamondPlanner.start_node diamondTest3.parent n k ∧
        diamondTest3.g_value n =
          diamondTest3.g_value diamondPlanner.start_node +
            chainDistance diamondPlanner.m_Model diamondTest3.parent k n) ∧
    (∀ goal s1, diamondTest3.open_list.length > 0 →
      NextNode insertionSort diamondTest3 = some (goal, s1) →
      atGoal diamondPlanner goal = true →
      ∃ k, ∀ fuel, k ≤ fuel →
        ∃ path r, ConstructFinalPath diamondPlanner fuel
            (AddNeighbors diamondPlanner s1 goal) goal = some (path, r) ∧
          r.distance =
            (r.g_value goal - r.g_value diamondPlanner.start_node) *
              diamondPlanner.m_Model.MetricScale)) :=
  ⟨by decide, by decide, rfl, by decide,
    C20_g_value_is_chain_distance insertionSort_isStdSort diamondPlanner
      wellFormed_diamondPlanner dirtyState ⟨fun _ => rfl, rfl⟩ diamondTest3
      loopState_diamondTest3⟩

/-- Claim C19: `detourModel` is a finite graph whose distance is a metric. The search from
node `0` to node `4` on a fresh state discovers node `3` from node `1`, popped first, at
cost `4`, and never lowers that cost when node `2` offers cost `2`: it returns the path
`0, 1, 3, 4` of total distance `16`, while the edge path `0, 2, 3, 4` costs `14`. No two
nodes of `open_list` ever have equal keys. -/
theorem C19_suboptimal_path :
    WellFormed detourPlanner ∧ IsMetric detourModel ∧ Fresh freshState ∧
      ∃ r, AStarSearch insertionSort detourPlanner 8 freshState = some (Exit.found, r) ∧
        r.path = [0, 1, 3, 4] ∧ r.distance = 16 ∧
        EdgePath detourModel [0, 2, 3, 4] ∧
        [0, 2, 3, 4].head? = some detourPlanner.start_node ∧
        [0, 2, 3, 4].getLast? = some detourPlanner.end_node ∧
        detourModel.MetricScale * pathLength detourModel [0, 2, 3, 4] = 14 ∧
        detourModel.MetricScale * pathLength detourModel [0, 2, 3, 4] < r.distance := by
  have hrun : (AStarSearch insertionSort detourPlanner 8 freshState).map
      (fun q => (q.1, q.2.path, q.2.distance)) = some (Exit.found, [0, 1, 3, 4], 16) := by
    decide
  refine ⟨by unfold WellFormed; decide, isMetric_detourModel, fresh_freshState, ?_⟩
  cases h1 : AStarSearch insertionSort detourPlanner 8 freshState with
  | none => simp [h1] at hrun
  | some q =>
    obtain ⟨e, r⟩ := q
    simp only [h1, Option.map_some', Option.some.injEq, Prod.mk.injEq] at hrun
    obtain ⟨rfl, hp, hd⟩ := hrun
    refine ⟨r, rfl, hp, hd, by simp [EdgePath, detourModel, detourAdj], rfl, rfl, by decide, ?_⟩
    rw [hd]
    decide

end LoopStateWitnesses

end RoutePlanning
